import Mathlib

/-
  Verification development for the BayesNets repository (BayesNet.py,
  InfByEnum.py, VariableElim.py, basic_tests.py, inf_by_enum.py).

  The Python code works on factor tables: a table is a list of rows, a row is
  a list of two-character signed labels (such as the string of a sign followed
  by a variable letter) with the probability in the row's last position.  We
  embed a label as a pair of characters (sign character, variable-name
  character), a row as a list of labels paired with a rational weight, and
  Python floats as rationals.  Python dictionaries keyed by concatenations of
  labels are embedded as association lists keyed by label lists; the outer
  probability-table keys (a node name, or a node name joined with its parent
  names) are embedded as a pair of the node and its parent list, which is in
  bijection with the string keys the code builds.  Fallible operations
  (dictionary misses, division by zero) return `Except PyError`.
-/

namespace BayesNets

/-- A signed label: the Python code writes labels as two-character strings,
a sign character followed by the lower-case variable name.  We keep the two
characters as a pair, sign first. -/
abbrev Label := Char × Char

/-- A factor row: the Python row is a list whose last element is the weight;
we keep the list of labels together with the rational weight. -/
abbrev Row := List Label × ℚ

/-- The default row used to totalize Python list indexing in the embedding. -/
def dRow : Row := ([], 0)

/-- Python runtime errors the embedded code can raise, plus the error class
named by the specification (which the code never defines) so that claims
about it can be stated. -/
inductive PyError where
  | keyError : PyError
  | zeroDivisionError : PyError
  | typeError : PyError
  | attributeError : PyError
  | degenerateDistributionError : PyError
deriving DecidableEq

/-- The order the Python `sorted(..., key=lambda v: v[1])` call uses on
labels: by the variable-name character (index 1 of the two-character label).
Ties between labels with the same name are broken by the sign character;
in the code's data ties cannot occur because a row never carries two labels
for the same variable. -/
def labelLE (a b : Label) : Prop := a.2 < b.2 ∨ (a.2 = b.2 ∧ a.1 ≤ b.1)

instance : DecidableRel labelLE := fun a b => by unfold labelLE; infer_instance

instance : IsTrans Label labelLE where
  trans a b c hab hbc := by
    rcases hab with h | ⟨h, h2⟩ <;> rcases hbc with h3 | ⟨h3, h4⟩
    · exact Or.inl (lt_trans h h3)
    · exact Or.inl (h3 ▸ h)
    · exact Or.inl (h ▸ h3)
    · exact Or.inr ⟨h.trans h3, le_trans h2 h4⟩

instance : IsAntisymm Label labelLE where
  antisymm a b hab hba := by
    rcases hab with h | ⟨h, h2⟩ <;> rcases hba with h3 | ⟨h3, h4⟩
    · exact absurd h3 (not_lt_of_lt h)
    · exact absurd h (h3 ▸ lt_irrefl _)
    · exact absurd h3 (h ▸ lt_irrefl _)
    · exact Prod.ext (le_antisymm h2 h4) h

instance : IsTotal Label labelLE where
  total a b := by
    unfold labelLE
    rcases lt_trichotomy a.2 b.2 with h | h | h
    · exact Or.inl (Or.inl h)
    · rcases le_total a.1 b.1 with h2 | h2
      · exact Or.inl (Or.inr ⟨h, h2⟩)
      · exact Or.inr (Or.inr ⟨h.symm, h2⟩)
    · exact Or.inr (Or.inl h)

/-- Python `sorted(..., key=lambda v: v[1])` on a list of labels. -/
def sortLabels (l : List Label) : List Label := List.insertionSort labelLE l

/-- Python `sorted(...)` on a list of characters. -/
def sortChars (l : List Char) : List Char :=
  List.insertionSort (fun a b : Char => a ≤ b) l

namespace BayesNet

/-- `BayesNet.signs`: based on the iteration number `i`, the list of sign
characters for each variable, one per `exp` from `num_vars - 1` down to `0`,
a plus sign when `i & 2**exp < 1` and a minus sign otherwise. -/
def signs (num_vars i : Nat) : List Char :=
  ((List.range num_vars).reverse).map (fun exp => if i &&& 2 ^ exp < 1 then '+' else '-')

/-- Lookup `self.probs[prob_table_key][prob_key]`: the outer key is the pair
of a node and its parent list (in bijection with the string key the code
formats), the inner key is the label list the concatenated string spells. -/
def lookupProb (probs : List ((Char × List Char) × List (List Label × ℚ)))
    (tableKey : Char × List Char) (probKey : List Label) : Option ℚ :=
  match probs.lookup tableKey with
  | none => none
  | some t => t.lookup probKey

/-- The `prob_key` string of `build_jpt` for one node: over the sorted
family of the node and its parents, join the sign at the member's index in
`self.nodes` with the member's lower-case name. -/
def probKey (nodes var_signs : List Char) (np : Char × List Char) : List Label :=
  (sortChars (np.1 :: np.2)).map (fun v =>
    (var_signs.getD (nodes.indexOf v) ' ', (nodes.getD (nodes.indexOf v) ' ').toLower))

/-- The `jpt_product` loop of `BayesNet.build_jpt`: starting from `1`,
multiply in `self.probs[prob_table_key][prob_key]` for every node.  A
missing dictionary entry raises `KeyError`. -/
def jptProduct (nodes : List Char) (parents : List (Char × List Char))
    (probs : List ((Char × List Char) × List (List Label × ℚ)))
    (var_signs : List Char) : Except PyError ℚ :=
  parents.foldlM (fun (acc : ℚ) np =>
    match lookupProb probs np (probKey nodes var_signs np) with
    | some p => Except.ok (acc * p)
    | none => Except.error PyError.keyError) 1

/-- One row of the joint table: the signed labels of every node in order,
followed by the product of the conditional probabilities. -/
def jptRow (nodes : List Char) (parents : List (Char × List Char))
    (probs : List ((Char × List Char) × List (List Label × ℚ))) (i : Nat) :
    Except PyError Row :=
  match jptProduct nodes parents probs (signs nodes.length i) with
  | Except.error e => Except.error e
  | Except.ok q =>
      Except.ok
        (nodes.enum.map (fun jv => ((signs nodes.length i).getD jv.1 ' ', jv.2.toLower)), q)

/-- The `for i in range(2**self.num_vars)` loop of `build_jpt`: each row is
appended in turn; the first raised exception aborts the loop. -/
def exceptMap (f : Nat → Except PyError Row) : List Nat → Except PyError (List Row)
  | [] => Except.ok []
  | i :: is =>
    match f i with
    | Except.error e => Except.error e
    | Except.ok r =>
      match exceptMap f is with
      | Except.error e => Except.error e
      | Except.ok rs => Except.ok (r :: rs)

/-- `BayesNet.build_jpt`: enumerate `i` in `[0, 2**num_vars)` and emit one
row per iteration; `self.nodes = list(parents.keys())`. -/
def build_jpt (parents : List (Char × List Char))
    (probs : List ((Char × List Char) × List (List Label × ℚ))) :
    Except PyError (List Row) :=
  exceptMap (jptRow (parents.map Prod.fst) parents probs)
    (List.range (2 ^ (parents.map Prod.fst).length))

/-- `BayesNet.__init__`: the constructor stores its arguments unchecked and
its only computation is `self.jpt = self.build_jpt(printer)`; we model it by
the joint table it builds.  No validation of any kind is performed. -/
def init (parents : List (Char × List Char))
    (probs : List ((Char × List Char) × List (List Label × ℚ))) :
    Except PyError (List Row) :=
  build_jpt parents probs

/-- `BayesNet.normalize`: `s = sum(row[-1] for row in p_x)` then
`row[-1] /= s` for every row.  In Python the first division raises
`ZeroDivisionError` when `s` is zero and at least one row exists; an empty
table returns unchanged. -/
def normalize (p_x : List Row) : Except PyError (List Row) :=
  let s : ℚ := (p_x.map (fun r => r.2)).sum
  if p_x ≠ [] ∧ s = 0 then Except.error PyError.zeroDivisionError
  else Except.ok (p_x.map (fun r => (r.1, r.2 / s)))

/-- One step of the `BayesNet.sum_out` loop over `i in range(len(p_x))`:
skip a collapsed index, otherwise pair row `i` with the row at
`i + (len(p_x) >> (1 + k))` (Python operator precedence parses
`len(p_x) >> 1 + k` this way), emit the row without column `k` carrying the
summed weight, and mark the partner index collapsed. -/
def bnStep (p_x : List Row) (k H : Nat) (st : List Row × List Nat) (i : Nat) :
    List Row × List Nat :=
  if i ∈ st.2 then st
  else
    (st.1 ++ [((p_x.getD i dRow).1.take k ++ (p_x.getD i dRow).1.drop (k + 1),
               (p_x.getD i dRow).2 + (p_x.getD (i + H) dRow).2)],
     st.2 ++ [i + H])

/-- `BayesNet.sum_out`: sum out the `k`-th column of the table by the
positional pairing loop above. -/
def sum_out (p_x : List Row) (k : Nat) : List Row :=
  ((List.range p_x.length).foldl (bnStep p_x k (p_x.length >>> (1 + k))) ([], [])).1

/-- The loop of `BayesNet.sum_out_many`: sum out the head index, then
decrement every later index that is larger than it (the code's in-place
adjustment of `indices`), and recurse. -/
def sumOutLoop : List Row → List Nat → List Row
  | t, [] => t
  | t, idx :: rest =>
      sumOutLoop (sum_out t idx) (rest.map (fun m => if idx < m then m - 1 else m))
termination_by t l => l.length
decreasing_by simp only [List.length_map, List.length_cons]; omega

/-- `BayesNet.sum_out_many`: map the variables to their indices in
`self.nodes` and run the adjustment loop over `self.jpt` (here the table is
passed explicitly). -/
def sum_out_many (nodes : List Char) (jpt : List Row) (to_sum_out : List Char) : List Row :=
  sumOutLoop jpt (to_sum_out.map (fun v => nodes.indexOf v))

/-- The row-matching test of `BayesNet.solve`: a row is kept when for every
label position `j`, `values[j]` is `None` or equals the row's label. -/
def rowMatches (values : List (Option Label)) (labels : List Label) : Bool :=
  labels.enum.all (fun jl =>
    match values.getD jl.1 none with
    | none => true
    | some v => decide (v = jl.2))

/-- `BayesNet.solve`, with the aliasing of Python rows made explicit: the
comprehension `table = [val ...]` collects references into `p_x`, and
`normalize` divides those rows in place.  We return the backing list as it
stands after the call together with the indices of the rows the returned
table aliases; when the surviving table has exactly one row `normalize` is
skipped and nothing is written. -/
def solve (p_x : List Row) (values : List (Option Label)) :
    Except PyError (List Row × List Nat) :=
  let keep := (List.range p_x.length).filter (fun i => rowMatches values (p_x.getD i dRow).1)
  if keep.length ≠ 1 then
    let s : ℚ := (keep.map (fun i => (p_x.getD i dRow).2)).sum
    if keep ≠ [] ∧ s = 0 then Except.error PyError.zeroDivisionError
    else Except.ok
      (p_x.enum.map (fun ir => if ir.1 ∈ keep then ((ir.2).1, (ir.2).2 / s) else ir.2), keep)
  else Except.ok (p_x, keep)

end BayesNet

namespace VariableElim

/-- The characters of the Python probability-key string, in order: each
two-character label contributes its sign character then its name character
(used for the substring test `evidence_var in prob_var_key`). -/
def keyChars (key : List Label) : List Char := key.flatMap (fun l => [l.1, l.2])

/-- The inner loop of `VariableElim.enact_evidence` for one probability
table: a row (the label list `cols` spelled by the dictionary key, plus its
probability) is kept unless some evidence variable occurs in the key string
while the evidence label is not among the row's columns.  The evidence
dictionary maps each evidence variable name to its label; we assume the
evidence names are distinct, as the code's dictionary comprehension does. -/
def enactTable (values : List Label) (t : List (List Label × ℚ)) : List Row :=
  t.filterMap (fun kv =>
    if values.all (fun ev => !(keyChars kv.1).contains ev.2 || kv.1.contains ev) then
      some (kv.1, kv.2)
    else none)

/-- `VariableElim.evidence_matches` on the label sets of two rows: `same` is
the intersection, the unique parts are stripped to their names
(`var[1:]`), and the rows match when `same` is nonempty and the stripped
unique names are disjoint. -/
def evidence_matches (row_set other_row_set : Finset Label) : Bool :=
  let same := row_set ∩ other_row_set
  let row_set_unique : Finset Char := (row_set \ same).image (fun l => l.2)
  let other_row_set_unique : Finset Char := (other_row_set \ same).image (fun l => l.2)
  decide (same.card ≠ 0) && decide (row_set_unique ∩ other_row_set_unique = ∅)

/-- One iteration of the `while len(key_queue) > 0` loop of
`VariableElim.join`: every row of the accumulated table is paired with every
row of the next table; matching pairs contribute the union of the two label
sets sorted by variable name, weighted by the product. -/
def join_pair (tbl next : List Row) : List Row :=
  tbl.flatMap (fun row =>
    next.filterMap (fun other_row =>
      let row_set := row.1.toFinset
      let other_row_set := other_row.1.toFinset
      if evidence_matches row_set other_row_set then
        some (sortLabels ((row.1 ++ other_row.1).dedup), row.2 * other_row.2)
      else none))

/-- `VariableElim.join`: pop the first table, then fold the pairwise join
over the rest of the queue. -/
def join : List (List Row) → List Row
  | [] => []
  | t :: rest => rest.foldl join_pair t

/-- `vars_i = p_x[i][:k] + p_x[i][k + 1:-1]`: the labels of a row with
column `k` removed. -/
def vars_at (labels : List Label) (k : Nat) : List Label :=
  labels.take k ++ labels.drop (k + 1)

/-- One step of the inner `for j in range(i + 1, len(p_x))` loop of
`VariableElim.sum_out`: skip when `i` or `j` is collapsed, otherwise merge
rows `i` and `j` additively when their labels agree off column `k`. -/
def veInnerStep (p_x : List Row) (k i : Nat) (st : List Row × List Nat) (j : Nat) :
    List Row × List Nat :=
  if i ∈ st.2 ∨ j ∈ st.2 then st
  else if vars_at (p_x.getD i dRow).1 k = vars_at (p_x.getD j dRow).1 k then
    (st.1 ++ [(vars_at (p_x.getD i dRow).1 k, (p_x.getD i dRow).2 + (p_x.getD j dRow).2)],
     st.2 ++ [j])
  else st

/-- `VariableElim.sum_out`: the nested matching loops, with `p_new` and
`collapsed` threaded through both. -/
def sum_out (p_x : List Row) (k : Nat) : List Row :=
  ((List.range p_x.length).foldl (fun st i =>
      (List.range' (i + 1) (p_x.length - (i + 1))).foldl (veInnerStep p_x k i) st)
    ([], [])).1

end VariableElim

/-- Modelled from the spec: the `restrict(factor, evidence)` operation of
section 4.3, which the code does not implement as described.  It keeps only
rows compatible with the evidence and removes the evidence-variable columns
from each surviving row, so the scope drops the evidence variables.  Used
to compare the spec's restriction with the code's `enact_evidence`. -/
def restrictSpec (values : List Label) (t : List (List Label × ℚ)) : List Row :=
  t.filterMap (fun kv =>
    if values.all (fun ev => kv.1.all (fun l => !decide (l.2 = ev.2) || decide (l = ev))) then
      some (kv.1.filter (fun l => !values.any (fun ev => ev.2 = l.2)), kv.2)
    else none)

/-- The methods defined by `class BayesNet` in BayesNet.py, transcribed from
the source. -/
def bayesNetDefs : List String :=
  ["__init__", "build_jpt", "signs", "sum_out_many", "solve", "normalize",
   "print_table", "latex_print", "sum_out"]

/-- The methods defined by `class VariableElim(BayesNet)` in
VariableElim.py, transcribed from the source. -/
def variableElimDefs : List String :=
  ["__init__", "solve", "enact_evidence", "get_hidden_vars", "join",
   "join_and_eliminate", "evidence_matches", "sum_out", "print_tables"]

/-- The methods defined by `class InfByEnum(BayesNet)` in InfByEnum.py,
transcribed from the source. -/
def infByEnumDefs : List String :=
  ["__init__", "build_jpt", "sum_out", "solve"]

/-- Attribute resolution on a `VariableElim` instance: its own class's
methods, then the base class's. -/
def variableElimAttrs : List String := variableElimDefs ++ bayesNetDefs

/-- The number of parameters of `BayesNet.__init__` that have no default
value and must be supplied by a call: `parents` and `probs` (`printer`
defaults to `None`). -/
def bayesNetInitRequired : Nat := 2

/-- The number of arguments passed by the `super().__init__(parents)` call
in both `VariableElim.__init__` and `InfByEnum.__init__`. -/
def superInitArgs : Nat := 1

/--
Claim C1.  The claim states that `InfByEnum.solve` and `VariableElim.solve`
return the same normalized distribution for every network and every
query/evidence combination.  In fact neither solver can return at all: the
last statement of `VariableElim.solve` is `return self.round_last(final, 5)`
and no class in the repository defines an attribute `round_last`, so every
call raises `AttributeError`; moreover both subclass constructors call
`super().__init__(parents)` while `BayesNet.__init__` requires the two
arguments `parents` and `probs`, so constructing either solver raises
`TypeError` and the repository's own test `basic_tests.py` cannot run.  This
theorem records the two facts in the embedding: attribute resolution for
`round_last` fails on a `VariableElim` (and on an `InfByEnum`) instance, and
the `super().__init__` call supplies fewer arguments than
`BayesNet.__init__` requires.
-/
theorem C1_solvers_cannot_run :
    "round_last" ∉ variableElimAttrs ∧
    "round_last" ∉ infByEnumDefs ++ bayesNetDefs ∧
    superInitArgs < bayesNetInitRequired := by
  refine ⟨?_, ?_, ?_⟩ <;> decide

/--
Claim C6, counterexample.  The claim states that normalization fails with
`DegenerateDistributionError` when the sum of the weights is zero.  The code
defines no such error class: on the all-zero one-row factor the division
`row[-1] /= s` raises Python's `ZeroDivisionError`, which is a different
error.
-/
theorem C6_counterexample :
    BayesNet.normalize [([('+', 'a')], 0)] = Except.error PyError.zeroDivisionError ∧
    Except.error (ε := PyError) (α := List Row) PyError.zeroDivisionError ≠
      Except.error PyError.degenerateDistributionError := by
  constructor
  · norm_num [BayesNet.normalize]
  · intro h
    exact absurd (Except.error.inj h) (by decide)

/--
Claim C6, amended: `BayesNet.normalize` divides every weight by the sum of
all weights, and fails — with Python's `ZeroDivisionError`, since the code
defines no `DegenerateDistributionError` — exactly when the sum of the
weights is zero and the table is nonempty (on an empty table the division
loop never runs).  When the sum is nonzero the result is the table with
every weight divided by the sum, and those weights add up to 1, so the
result is neither NaN nor silently unnormalized.
-/
theorem sum_map_div (l : List ℚ) (s : ℚ) : (l.map (fun q => q / s)).sum = l.sum / s := by
  induction l with
  | nil => simp
  | cons q l ih => simp [ih, div_add_div_same]

theorem C6_normalize (p_x : List Row) :
    (BayesNet.normalize p_x = Except.error PyError.zeroDivisionError ↔
      (p_x ≠ [] ∧ (p_x.map (fun r => r.2)).sum = 0)) ∧
    ((p_x.map (fun r => r.2)).sum ≠ 0 →
      BayesNet.normalize p_x =
        Except.ok (p_x.map (fun r => (r.1, r.2 / (p_x.map (fun r => r.2)).sum))) ∧
      ∀ t, BayesNet.normalize p_x = Except.ok t → (t.map (fun r => r.2)).sum = 1) := by
  constructor
  · constructor
    · intro h
      by_cases hc : p_x ≠ [] ∧ (p_x.map (fun r => r.2)).sum = 0
      · exact hc
      · unfold BayesNet.normalize at h
        rw [if_neg hc] at h
        exact absurd h (by simp)
    · intro hc
      unfold BayesNet.normalize
      rw [if_pos hc]
  · intro hs
    have hne : ¬(p_x ≠ [] ∧ (p_x.map (fun r => r.2)).sum = 0) := fun h => hs h.2
    constructor
    · unfold BayesNet.normalize
      rw [if_neg hne]
    · intro t ht
      unfold BayesNet.normalize at ht
      rw [if_neg hne] at ht
      injection ht with ht
      subst ht
      rw [List.map_map]
      have h1 : (List.map ((fun r => r.2) ∘ fun r =>
          (r.1, r.2 / (p_x.map (fun r => r.2)).sum)) p_x) =
          List.map (fun q => q / (p_x.map (fun r => r.2)).sum) (p_x.map (fun r => r.2)) := by
        simp [Function.comp]
      rw [h1, sum_map_div, div_self hs]

/-- Witness for claim C6's amended theorem at a concrete two-row factor with
weight sum 3/4. -/
theorem C6_normalize_witness :
    BayesNet.normalize [([('+', 'a')], (1 : ℚ)/2), ([('-', 'a')], 1/4)] =
      Except.ok [([('+', 'a')], (2 : ℚ)/3), ([('-', 'a')], 1/3)] := by
  have h := (C6_normalize [([('+', 'a')], (1 : ℚ)/2), ([('-', 'a')], 1/4)]).2 (by norm_num)
  rw [h.1]
  norm_num

/--
Claim C2, counterexample.  The claim states that restriction drops the
evidence variables from the factor's scope and removes those columns from
every surviving row.  On the factor for variable A with evidence fixing A
positive, `enact_evidence` keeps the surviving row's A column, while the
spec's restriction would leave an empty label list.
-/
theorem C2_counterexample :
    (VariableElim.enactTable [('+', 'a')]
        [([('+', 'a')], (3 : ℚ)/10), ([('-', 'a')], 7/10)]).map (fun r => r.1) =
      [[('+', 'a')]] ∧
    (restrictSpec [('+', 'a')]
        [([('+', 'a')], (3 : ℚ)/10), ([('-', 'a')], 7/10)]).map (fun r => r.1) =
      [[]] := by
  constructor <;> decide

theorem enactTable_eq_filter (values : List Label) (t : List (List Label × ℚ)) :
    VariableElim.enactTable values t =
      t.filter (fun kv =>
        values.all (fun ev => !(VariableElim.keyChars kv.1).contains ev.2 || kv.1.contains ev)) := by
  induction t with
  | nil => rfl
  | cons kv t ih =>
    unfold VariableElim.enactTable at ih ⊢
    rw [List.filterMap_cons, List.filter_cons]
    by_cases h : values.all
        (fun ev => !(VariableElim.keyChars kv.1).contains ev.2 || kv.1.contains ev) = true
    · rw [if_pos h, if_pos h, ih]
    · rw [if_neg h, if_neg h, ih]

theorem contains_true_iff {α : Type} [BEq α] [LawfulBEq α] (l : List α) (a : α) :
    l.contains a = true ↔ a ∈ l := List.elem_iff

theorem mem_keyChars (key : List Label) (c : Char) :
    c ∈ VariableElim.keyChars key ↔ ∃ l ∈ key, c = l.1 ∨ c = l.2 := by
  unfold VariableElim.keyChars
  rw [List.mem_flatMap]
  constructor
  · rintro ⟨l, hl, hc⟩
    refine ⟨l, hl, ?_⟩
    rcases List.mem_cons.1 hc with h | hc2
    · exact Or.inl h
    · rcases List.mem_cons.1 hc2 with h | hc3
      · exact Or.inr h
      · exact absurd hc3 (List.not_mem_nil c)
  · rintro ⟨l, hl, hc⟩
    refine ⟨l, hl, ?_⟩
    rcases hc with h | h
    · rw [h]; exact List.mem_cons_self _ _
    · rw [h]; exact List.mem_cons_of_mem _ (List.mem_cons_self _ _)

/--
Claim C2, amended: `enact_evidence` restricts a factor by filtering its rows
to those compatible with the evidence, but it does not drop the
evidence-variable columns: the surviving rows keep the factor's full label
list.  Evidence on a variable outside the factor's scope leaves that factor
unchanged.  Hypotheses: each row's variable names are distinct, signs are
the plus or minus character, and evidence names are not sign characters
(all true of the code's data, where names are lower-case letters).
-/
theorem C2_enact_evidence (values : List Label) (t : List (List Label × ℚ))
    (hnames : ∀ kv ∈ t, (kv.1.map Prod.snd).Nodup)
    (hrowsign : ∀ kv ∈ t, ∀ l ∈ kv.1, l.1 = '+' ∨ l.1 = '-')
    (hevname : ∀ ev ∈ values, ev.2 ≠ '+' ∧ ev.2 ≠ '-') :
    VariableElim.enactTable values t =
      t.filter (fun kv => decide (∀ ev ∈ values, ∀ l ∈ kv.1, l.2 = ev.2 → l = ev)) ∧
    ((∀ kv ∈ t, ∀ ev ∈ values, ev.2 ∉ kv.1.map Prod.snd) →
      VariableElim.enactTable values t = t) := by
  have hmain : VariableElim.enactTable values t =
      t.filter (fun kv => decide (∀ ev ∈ values, ∀ l ∈ kv.1, l.2 = ev.2 → l = ev)) := by
    rw [enactTable_eq_filter]
    apply List.filter_congr
    intro kv hkv
    rw [Bool.eq_iff_iff, List.all_eq_true, decide_eq_true_eq]
    constructor
    · intro h ev hev l hl hle
      have hcond := h ev hev
      rw [Bool.or_eq_true, Bool.not_eq_true'] at hcond
      have hmem : ev.2 ∈ VariableElim.keyChars kv.1 := by
        rw [mem_keyChars]
        exact ⟨l, hl, Or.inr hle.symm⟩
      rcases hcond with hc | hc
      · rw [← contains_true_iff] at hmem
        rw [hmem] at hc
        cases hc
      · rw [contains_true_iff] at hc
        exact List.inj_on_of_nodup_map (hnames kv hkv) hl hc hle
    · intro h ev hev
      rw [Bool.or_eq_true]
      by_cases hmem : ev.2 ∈ VariableElim.keyChars kv.1
      · right
        rw [mem_keyChars] at hmem
        obtain ⟨l, hl, hc⟩ := hmem
        rcases hc with hc | hc
        · rcases hrowsign kv hkv l hl with hs | hs
          · exact absurd (hc.trans hs) (hevname ev hev).1
          · exact absurd (hc.trans hs) (hevname ev hev).2
        · rw [contains_true_iff]
          have hev2 := h ev hev l hl hc.symm
          rw [← hev2]
          exact hl
      · cases hcase : (VariableElim.keyChars kv.1).contains ev.2 with
        | false => left; rfl
        | true => exact absurd ((contains_true_iff _ _).1 hcase) hmem
  refine ⟨hmain, fun hout => ?_⟩
  rw [hmain]
  apply List.filter_eq_self.2
  intro kv hkv
  rw [decide_eq_true_eq]
  intro ev hev l hl hle
  exact absurd (List.mem_map_of_mem Prod.snd hl) (hle ▸ hout kv hkv ev hev)

/-- Witness for claim C2's amended theorem: the E-given-B,C table of the
repository's running example restricted by positive evidence on E. -/
theorem C2_witness :
    VariableElim.enactTable [('+', 'e')]
        [([('+', 'b'), ('+', 'c'), ('+', 'e')], (2 : ℚ)/10),
         ([('+', 'b'), ('+', 'c'), ('-', 'e')], 8/10),
         ([('+', 'b'), ('-', 'c'), ('+', 'e')], 6/10),
         ([('+', 'b'), ('-', 'c'), ('-', 'e')], 4/10)] =
      List.filter (fun kv => decide (∀ ev ∈ [(('+', 'e') : Label)], ∀ l ∈ kv.1, l.2 = ev.2 → l = ev))
        [([('+', 'b'), ('+', 'c'), ('+', 'e')], (2 : ℚ)/10),
         ([('+', 'b'), ('+', 'c'), ('-', 'e')], 8/10),
         ([('+', 'b'), ('-', 'c'), ('+', 'e')], 6/10),
         ([('+', 'b'), ('-', 'c'), ('-', 'e')], 4/10)] :=
  (C2_enact_evidence [('+', 'e')] _ (by decide) (by decide) (by decide)).1

/--
Claim C4, counterexample.  The claim states that joining two factors with
disjoint scopes (as the elimination finalize step may) produces the full
Cartesian product of their rows.  Joining a two-row factor over A with a
two-row factor over B yields the empty table, not the four-row product:
`evidence_matches` demands a nonempty intersection of the two label sets,
which disjoint scopes can never provide.
-/
theorem C4_counterexample :
    (VariableElim.join
        [[([('+', 'a')], (3 : ℚ)/10), ([('-', 'a')], 7/10)],
         [([('+', 'b')], (1 : ℚ)/2), ([('-', 'b')], 1/2)]]).length = 0 ∧
    ([([('+', 'a')], (3 : ℚ)/10), ([('-', 'a')], 7/10)].length *
      [([('+', 'b')], (1 : ℚ)/2), ([('-', 'b')], 1/2)].length) = 4 := by
  constructor <;> decide

/--
Claim C4, amended: in the finalize step (as anywhere else), `join` applied
to two factors whose scopes share no variable produces the empty table, not
the Cartesian product: every pair of rows has an empty `same` intersection,
so `evidence_matches` rejects it.
-/
theorem C4_disjoint_join (t1 t2 : List Row)
    (hd : ∀ r1 ∈ t1, ∀ r2 ∈ t2, ∀ l1 ∈ r1.1, ∀ l2 ∈ r2.1, l1.2 ≠ l2.2) :
    VariableElim.join [t1, t2] = [] := by
  show List.foldl VariableElim.join_pair t1 [t2] = []
  show VariableElim.join_pair t1 t2 = []
  unfold VariableElim.join_pair
  rw [List.flatMap_eq_nil_iff]
  intro r1 hr1
  rw [List.filterMap_eq_nil_iff]
  intro r2 hr2
  have hmatch : VariableElim.evidence_matches r1.1.toFinset r2.1.toFinset = false := by
    unfold VariableElim.evidence_matches
    have hcap : r1.1.toFinset ∩ r2.1.toFinset = ∅ := by
      rw [Finset.eq_empty_iff_forall_not_mem]
      intro l hl
      rw [Finset.mem_inter, List.mem_toFinset, List.mem_toFinset] at hl
      exact hd r1 hr1 r2 hr2 l hl.1 l hl.2 rfl
    simp [hcap]
  simp [hmatch]

/-- Witness for claim C4's amended theorem on two concrete single-variable
factors over the distinct variables C and W. -/
theorem C4_disjoint_join_witness :
    VariableElim.join
        [[([('+', 'c')], (1 : ℚ)/2), ([('-', 'c')], 1/2)],
         [([('+', 'w')], (9 : ℚ)/10), ([('-', 'w')], 1/10)]] = [] :=
  C4_disjoint_join _ _ (by decide)

theorem except_bind_error {α β : Type} (e : PyError) (f : α → Except PyError β) :
    ((Except.error e : Except PyError α) >>= f) = Except.error e := rfl

theorem except_bind_ok {α β : Type} (a : α) (f : α → Except PyError β) :
    ((Except.ok a : Except PyError α) >>= f) = f a := rfl

theorem jptFold_isOk (nodes : List Char)
    (probs : List ((Char × List Char) × List (List Label × ℚ))) (var_signs : List Char)
    (parents : List (Char × List Char)) : ∀ acc : ℚ,
    ((parents.foldlM (fun (acc : ℚ) np =>
        match BayesNet.lookupProb probs np (BayesNet.probKey nodes var_signs np) with
        | some p => Except.ok (acc * p)
        | none => Except.error PyError.keyError) acc).isOk = true ↔
      ∀ np ∈ parents,
        (BayesNet.lookupProb probs np (BayesNet.probKey nodes var_signs np)).isSome = true) := by
  induction parents with
  | nil =>
    intro acc
    constructor
    · intro _ np hnp; exact absurd hnp (List.not_mem_nil np)
    · intro _; rfl
  | cons np l ih =>
    intro acc
    rw [List.foldlM_cons]
    cases hl : BayesNet.lookupProb probs np (BayesNet.probKey nodes var_signs np) with
    | none =>
      simp only [hl, except_bind_error]
      constructor
      · intro h; cases h
      · intro h
        have h2 := h np (List.mem_cons_self _ _)
        rw [hl] at h2
        cases h2
    | some p =>
      simp only [hl, except_bind_ok]
      rw [ih (acc * p)]
      constructor
      · intro h np2 hnp2
        rcases List.mem_cons.1 hnp2 with he | hm
        · subst he; rw [hl]; rfl
        · exact h np2 hm
      · intro h np2 hnp2
        exact h np2 (List.mem_cons_of_mem _ hnp2)

theorem jptProduct_isOk_iff (nodes : List Char) (parents : List (Char × List Char))
    (probs : List ((Char × List Char) × List (List Label × ℚ))) (var_signs : List Char) :
    (BayesNet.jptProduct nodes parents probs var_signs).isOk = true ↔
      ∀ np ∈ parents,
        (BayesNet.lookupProb probs np (BayesNet.probKey nodes var_signs np)).isSome = true := by
  unfold BayesNet.jptProduct
  exact jptFold_isOk nodes probs var_signs parents 1

theorem jptRow_isOk_iff (nodes : List Char) (parents : List (Char × List Char))
    (probs : List ((Char × List Char) × List (List Label × ℚ))) (i : Nat) :
    (BayesNet.jptRow nodes parents probs i).isOk = true ↔
      (BayesNet.jptProduct nodes parents probs (BayesNet.signs nodes.length i)).isOk = true := by
  unfold BayesNet.jptRow
  cases hq : BayesNet.jptProduct nodes parents probs (BayesNet.signs nodes.length i) with
  | error e => exact Iff.rfl
  | ok q => exact Iff.rfl

theorem exceptMap_isOk_iff (f : Nat → Except PyError Row) (l : List Nat) :
    (BayesNet.exceptMap f l).isOk = true ↔ ∀ i ∈ l, (f i).isOk = true := by
  induction l with
  | nil =>
    constructor
    · intro _ i hi; exact absurd hi (List.not_mem_nil i)
    · intro _; rfl
  | cons i l ih =>
    unfold BayesNet.exceptMap
    cases hi : f i with
    | error e =>
      constructor
      · intro h; cases h
      · intro h
        have h2 := h i (List.mem_cons_self _ _)
        rw [hi] at h2
        cases h2
    | ok r =>
      cases hrest : BayesNet.exceptMap f l with
      | error e =>
        constructor
        · intro h; cases h
        · intro h
          have h2 := ih.2 (fun j hj => h j (List.mem_cons_of_mem _ hj))
          rw [hrest] at h2
          cases h2
      | ok rs =>
        constructor
        · intro _ j hj
          rcases List.mem_cons.1 hj with he | hm
          · subst he; rw [hi]; rfl
          · exact ih.1 (by rw [hrest]; rfl) j hm
        · intro _; rfl

/--
Claim C8, counterexample.  The claim states that network construction fails
with `ConfigurationError` whenever a variable's CPT entries for a fixed
parent assignment do not sum to 1, or whenever the parent sets form a
cycle.  The code performs no validation at all (and defines no
`ConfigurationError`): a one-node network whose two entries sum to 6/10
constructs successfully, and so does a two-node network whose parent sets
form the cycle A -> B -> A.
-/
theorem C8_counterexample :
    (BayesNet.init [('A', [])]
        [(('A', []), [([('+', 'a')], (3 : ℚ)/10), ([('-', 'a')], 3/10)])]).isOk = true ∧
    (BayesNet.init [('A', ['B']), ('B', ['A'])]
        [(('A', ['B']),
            [([('+', 'a'), ('+', 'b')], (1 : ℚ)/2), ([('+', 'a'), ('-', 'b')], 1/2),
             ([('-', 'a'), ('+', 'b')], 1/2), ([('-', 'a'), ('-', 'b')], 1/2)]),
         (('B', ['A']),
            [([('+', 'a'), ('+', 'b')], (1 : ℚ)/2), ([('+', 'a'), ('-', 'b')], 1/2),
             ([('-', 'a'), ('+', 'b')], 1/2), ([('-', 'a'), ('-', 'b')], 1/2)])]).isOk = true := by
  constructor <;> decide

/--
Claim C8, amended: `BayesNet.__init__` performs no validation.  Its only
computation is building the joint table, so construction succeeds exactly
when every conditional-probability lookup the joint-table build performs is
present — a missing CPT entry surfaces as Python's `KeyError` from the
dictionary access, and cyclic parent sets or CPT rows that do not sum to 1
are not detected (no `ConfigurationError` exists in the code).
-/
theorem C8_init_no_validation (parents : List (Char × List Char))
    (probs : List ((Char × List Char) × List (List Label × ℚ))) :
    (BayesNet.init parents probs).isOk = true ↔
      ∀ i < 2 ^ (parents.map Prod.fst).length, ∀ np ∈ parents,
        (BayesNet.lookupProb probs np
          (BayesNet.probKey (parents.map Prod.fst)
            (BayesNet.signs (parents.map Prod.fst).length i) np)).isSome = true := by
  unfold BayesNet.init BayesNet.build_jpt
  rw [exceptMap_isOk_iff]
  constructor
  · intro h i hi np hnp
    exact (jptProduct_isOk_iff _ _ _ _).1
      ((jptRow_isOk_iff _ _ _ _).1 (h i (List.mem_range.2 hi))) np hnp
  · intro h i hi
    exact (jptRow_isOk_iff _ _ _ _).2
      ((jptProduct_isOk_iff _ _ _ _).2 (h i (List.mem_range.1 hi)))

theorem signs_getD (n i j : Nat) (hj : j < n) :
    (BayesNet.signs n i).getD j ' ' = if i.testBit (n - 1 - j) then '-' else '+' := by
  unfold BayesNet.signs
  have hlen : j <
      ((List.range n).reverse.map (fun exp => if i &&& 2 ^ exp < 1 then '+' else '-')).length := by
    rw [List.length_map, List.length_reverse, List.length_range]; exact hj
  rw [List.getD_eq_getElem _ _ hlen, List.getElem_map]
  have hjr : j < (List.range n).reverse.length := by
    rw [List.length_reverse, List.length_range]; exact hj
  have hrev : (List.range n).reverse[j] = n - 1 - j := by
    rw [List.getElem_reverse, List.getElem_range]
    simp [List.length_range]
  rw [hrev, Nat.and_two_pow]
  cases htb : i.testBit (n - 1 - j) with
  | false => simp
  | true => simp

theorem getD_indexOf (nodes : List Char) (v : Char) (h : v ∈ nodes) :
    nodes.getD (nodes.indexOf v) ' ' = v := by
  rw [List.getD_eq_getElem _ _ (List.indexOf_lt_length.2 h)]
  exact List.getElem_indexOf _

theorem exceptMap_ok_getD (f : Nat → Except PyError Row) (l : List Nat) (out : List Row)
    (h : BayesNet.exceptMap f l = Except.ok out) :
    out.length = l.length ∧
    ∀ j, j < l.length → f (l.getD j 0) = Except.ok (out.getD j dRow) := by
  induction l generalizing out with
  | nil =>
    unfold BayesNet.exceptMap at h
    injection h with h
    subst h
    exact ⟨rfl, fun j hj => absurd hj (Nat.not_lt_zero j)⟩
  | cons i l ih =>
    unfold BayesNet.exceptMap at h
    cases hi : f i with
    | error e => rw [hi] at h; cases h
    | ok r =>
      rw [hi] at h
      cases hrest : BayesNet.exceptMap f l with
      | error e => rw [hrest] at h; cases h
      | ok rs =>
        rw [hrest] at h
        injection h with h
        subst h
        obtain ⟨hlen, hpt⟩ := ih rs hrest
        refine ⟨by simp [hlen], fun j hj => ?_⟩
        cases j with
        | zero => exact hi
        | succ j2 =>
          have : j2 < l.length := by simpa using hj
          exact hpt j2 this

theorem jptFold_ok (nodes : List Char)
    (probs : List ((Char × List Char) × List (List Label × ℚ))) (var_signs : List Char) :
    ∀ (parents : List (Char × List Char)) (acc q : ℚ),
    (parents.foldlM (fun (acc : ℚ) np =>
        match BayesNet.lookupProb probs np (BayesNet.probKey nodes var_signs np) with
        | some p => Except.ok (acc * p)
        | none => Except.error PyError.keyError) acc) = Except.ok q →
    ∃ qs : List ℚ,
      parents.map (fun np =>
        BayesNet.lookupProb probs np (BayesNet.probKey nodes var_signs np)) = qs.map some ∧
      q = acc * qs.prod := by
  intro parents
  induction parents with
  | nil =>
    intro acc q h
    injection h with h
    exact ⟨[], rfl, by rw [← h]; simp⟩
  | cons np l ih =>
    intro acc q h
    rw [List.foldlM_cons] at h
    cases hl : BayesNet.lookupProb probs np (BayesNet.probKey nodes var_signs np) with
    | none => rw [hl, except_bind_error] at h; cases h
    | some p =>
      rw [hl, except_bind_ok] at h
      obtain ⟨qs, hmap, hq⟩ := ih (acc * p) q h
      refine ⟨p :: qs, ?_, ?_⟩
      · rw [List.map_cons, List.map_cons, hl, hmap]
      · rw [hq, List.prod_cons, mul_assoc]

theorem jptRow_ok (nodes : List Char) (parents : List (Char × List Char))
    (probs : List ((Char × List Char) × List (List Label × ℚ))) (i : Nat) (r : Row)
    (h : BayesNet.jptRow nodes parents probs i = Except.ok r) :
    r.1 = nodes.enum.map (fun jv =>
      ((BayesNet.signs nodes.length i).getD jv.1 ' ', jv.2.toLower)) ∧
    BayesNet.jptProduct nodes parents probs (BayesNet.signs nodes.length i) =
      Except.ok r.2 := by
  unfold BayesNet.jptRow at h
  cases hq : BayesNet.jptProduct nodes parents probs (BayesNet.signs nodes.length i) with
  | error e => rw [hq] at h; cases h
  | ok q =>
    rw [hq] at h
    injection h with h
    subst h
    exact ⟨rfl, rfl⟩

theorem enum_map_labels (nodes : List Char) (i : Nat) :
    nodes.enum.map (fun jv =>
      ((BayesNet.signs nodes.length i).getD jv.1 ' ', jv.2.toLower)) =
      (List.range nodes.length).map (fun j =>
        (if i.testBit (nodes.length - 1 - j) then '-' else '+',
         (nodes.getD j ' ').toLower)) := by
  apply List.ext_getElem
  · rw [List.length_map, List.enum_length, List.length_map, List.length_range]
  · intro j h1 h2
    have hj : j < nodes.length := by
      rw [List.length_map, List.enum_length] at h1; exact h1
    rw [List.getElem_map, List.getElem_map, List.getElem_enum, List.getElem_range,
      signs_getD _ _ _ hj]
    have : nodes.getD j ' ' = nodes[j] := List.getD_eq_getElem nodes ' ' hj
    rw [this]

/--
Claim C7.  The joint table builder on a network of `n` variables produces a
factor of exactly `2 ^ n` rows.  Row `i`'s label for variable `j` carries a
minus sign exactly when bit `n - 1 - j` of `i` is set (equivalently, bit
`n - 1 - exp` selects variable `exp`), so row 0 is all-positive.  Row `i`'s
weight is the product, over every variable, of the CPT entry looked up at
the key spelling, for the sorted family of the variable and its parents,
each member's own signed label in row `i`'s assignment — the product of a
list of looked-up entries, which the code accumulates starting from 1.
-/
theorem C7_build_jpt (parents : List (Char × List Char))
    (probs : List ((Char × List Char) × List (List Label × ℚ))) (jpt : List Row)
    (hmem : ∀ np ∈ parents, ∀ c ∈ np.1 :: np.2, c ∈ parents.map Prod.fst)
    (hok : BayesNet.build_jpt parents probs = Except.ok jpt) :
    jpt.length = 2 ^ (parents.map Prod.fst).length ∧
    (∀ i < 2 ^ (parents.map Prod.fst).length,
      (jpt.getD i dRow).1 =
        (List.range (parents.map Prod.fst).length).map (fun j =>
          (if i.testBit ((parents.map Prod.fst).length - 1 - j) then '-' else '+',
           ((parents.map Prod.fst).getD j ' ').toLower))) ∧
    (∀ l ∈ (jpt.getD 0 dRow).1, l.1 = '+') ∧
    (∀ i < 2 ^ (parents.map Prod.fst).length,
      ∃ qs : List ℚ,
        parents.map (fun np => BayesNet.lookupProb probs np
          ((sortChars (np.1 :: np.2)).map (fun v =>
            (if i.testBit ((parents.map Prod.fst).length - 1 -
                (parents.map Prod.fst).indexOf v) then '-' else '+', v.toLower)))) =
          qs.map some ∧
        (jpt.getD i dRow).2 = qs.prod) := by
  unfold BayesNet.build_jpt at hok
  obtain ⟨hlen, hpt⟩ := exceptMap_ok_getD _ _ _ hok
  rw [List.length_range] at hlen
  have hrow : ∀ i, i < 2 ^ (parents.map Prod.fst).length →
      BayesNet.jptRow (parents.map Prod.fst) parents probs i =
        Except.ok (jpt.getD i dRow) := by
    intro i hi
    have h2 := hpt i (by rw [List.length_range]; exact hi)
    rwa [List.getD_eq_getElem _ _ (by rw [List.length_range]; exact hi),
      List.getElem_range] at h2
  have hn : (2 : Nat) ^ (parents.map Prod.fst).length > 0 := Nat.pos_pow_of_pos _ (by omega)
  have hlab : ∀ i < 2 ^ (parents.map Prod.fst).length,
      (jpt.getD i dRow).1 =
        (List.range (parents.map Prod.fst).length).map (fun j =>
          (if i.testBit ((parents.map Prod.fst).length - 1 - j) then '-' else '+',
           ((parents.map Prod.fst).getD j ' ').toLower)) := by
    intro i hi
    have h3 := (jptRow_ok _ _ _ _ _ (hrow i hi)).1
    rw [h3]
    have h4 := enum_map_labels (parents.map Prod.fst) i
    rw [List.length_map] at h4 ⊢
    exact h4
  refine ⟨hlen, hlab, ?_, ?_⟩
  · intro l hl
    rw [hlab 0 hn] at hl
    obtain ⟨j, _, hlj⟩ := List.mem_map.1 hl
    rw [← hlj, Nat.zero_testBit]
    rfl
  · intro i hi
    have hprod := (jptRow_ok _ _ _ _ _ (hrow i hi)).2
    unfold BayesNet.jptProduct at hprod
    obtain ⟨qs, hmap, hq⟩ := jptFold_ok (parents.map Prod.fst) probs
      (BayesNet.signs (parents.map Prod.fst).length i) parents 1 _ hprod
    refine ⟨qs, ?_, by rw [hq, one_mul]⟩
    rw [← hmap]
    apply List.map_congr_left
    intro np hnp
    have hkey : BayesNet.probKey (parents.map Prod.fst)
        (BayesNet.signs (parents.map Prod.fst).length i) np =
        (sortChars (np.1 :: np.2)).map (fun v =>
          (if i.testBit ((parents.map Prod.fst).length - 1 -
              (parents.map Prod.fst).indexOf v) then '-' else '+', v.toLower)) := by
      unfold BayesNet.probKey
      apply List.map_congr_left
      intro v hvmem
      have hvin : v ∈ np.1 :: np.2 :=
        (List.perm_insertionSort (fun a b : Char => a ≤ b) (np.1 :: np.2)).mem_iff.1 hvmem
      have hvnodes : v ∈ parents.map Prod.fst := hmem np hnp v hvin
      have hidx : (parents.map Prod.fst).indexOf v < (parents.map Prod.fst).length :=
        List.indexOf_lt_length.2 hvnodes
      rw [signs_getD _ _ _ hidx, getD_indexOf _ _ hvnodes]
    rw [hkey]

/-- Witness for claim C7 on the one-variable network with entries 3/10 and
7/10: the built joint table has `2 ^ 1` rows. -/
theorem C7_witness :
    ([([('+', 'a')], 1 * ((3 : ℚ)/10)), ([('-', 'a')], 1 * ((7 : ℚ)/10))] : List Row).length =
      2 ^ (([(('A' : Char), ([] : List Char))]).map Prod.fst).length :=
  (C7_build_jpt [('A', [])]
    [(('A', []), [([('+', 'a')], (3 : ℚ)/10), ([('-', 'a')], (7 : ℚ)/10)])]
    [([('+', 'a')], 1 * ((3 : ℚ)/10)), ([('-', 'a')], 1 * ((7 : ℚ)/10))]
    (by decide) (by rfl)).1

theorem getD_map_enum (l : List Row) (f : Nat × Row → Row) (i : Nat) (hi : i < l.length) :
    (l.enum.map f).getD i dRow = f (i, l.getD i dRow) := by
  have h1 : i < (l.enum.map f).length := by
    rw [List.length_map, List.enum_length]; exact hi
  rw [List.getD_eq_getElem _ _ h1, List.getElem_map, List.getElem_enum,
    List.getD_eq_getElem _ _ hi]

/--
Claim C10, counterexample.  The claim states that for every input factor
whose restriction leaves more than one row, `solve` mutates the weights of
the input's surviving rows.  On an already-normalized two-row factor with an
all-wildcard query, both rows survive, `normalize` divides each weight by
the sum 1, and every weight is numerically unchanged: the returned backing
list is the input list itself, so nothing was modified even though more than
one row survived.
-/
theorem C10_counterexample :
    BayesNet.solve [([('+', 'a')], (1 : ℚ)/2), ([('-', 'a')], 1/2)] [none] =
      Except.ok ([([('+', 'a')], (1 : ℚ)/2), ([('-', 'a')], 1/2)], [0, 1]) := by
  norm_num [BayesNet.solve, BayesNet.rowMatches, List.range_succ]

/--
Claim C10, amended: `BayesNet.normalize` divides each surviving row's weight
in place on the input's own row objects and `BayesNet.solve` builds its
result from references to the input factor's rows; hence whenever the
restriction leaves a number of rows other than one, the input's surviving
rows hold weight `w / s` after the call (`s` the surviving weights' sum) and
the rows not surviving are untouched.  The weights genuinely change — so a
later query over the same stored table reads modified weights — exactly for
surviving rows with `w ≠ 0` when `s ≠ 1`; when the surviving rows already
sum to 1 (in particular the full stored joint table under an all-wildcard
query) the written values equal the old ones.
-/
theorem C10_solve_mutates (p_x : List Row) (values : List (Option Label))
    (st : List Row) (keep : List Nat)
    (hok : BayesNet.solve p_x values = Except.ok (st, keep))
    (hlen : keep.length ≠ 1) :
    keep = (List.range p_x.length).filter
      (fun i => BayesNet.rowMatches values (p_x.getD i dRow).1) ∧
    st.length = p_x.length ∧
    (∀ i ∈ keep, st.getD i dRow =
      ((p_x.getD i dRow).1,
       (p_x.getD i dRow).2 / (keep.map (fun j => (p_x.getD j dRow).2)).sum)) ∧
    (∀ i < p_x.length, i ∉ keep → st.getD i dRow = p_x.getD i dRow) ∧
    (∀ i ∈ keep, (keep.map (fun j => (p_x.getD j dRow).2)).sum ≠ 1 →
      (p_x.getD i dRow).2 ≠ 0 → (st.getD i dRow).2 ≠ (p_x.getD i dRow).2) := by
  unfold BayesNet.solve at hok
  set keep0 := (List.range p_x.length).filter
    (fun i => BayesNet.rowMatches values (p_x.getD i dRow).1) with hkeep0
  set s : ℚ := (keep0.map (fun j => (p_x.getD j dRow).2)).sum with hs
  by_cases hone : keep0.length ≠ 1
  · rw [if_pos hone] at hok
    by_cases hz : keep0 ≠ [] ∧ s = 0
    · rw [if_pos hz] at hok
      cases hok
    · rw [if_neg hz] at hok
      injection hok with hok
      have hst : st = p_x.enum.map
          (fun ir => if ir.1 ∈ keep0 then ((ir.2).1, (ir.2).2 / s) else ir.2) :=
        (congrArg Prod.fst hok).symm
      have hkeep : keep = keep0 := (congrArg Prod.snd hok).symm
      subst hkeep
      have hmemlt : ∀ i ∈ keep0, i < p_x.length := by
        intro i hi
        exact List.mem_range.1 (List.mem_filter.1 hi).1
      have hstlen : st.length = p_x.length := by
        rw [hst, List.length_map, List.enum_length]
      have hget : ∀ i, i < p_x.length →
          st.getD i dRow = (if i ∈ keep0 then
            ((p_x.getD i dRow).1, (p_x.getD i dRow).2 / s) else p_x.getD i dRow) := by
        intro i hi
        rw [hst, getD_map_enum p_x _ i hi]
      refine ⟨rfl, hstlen, ?_, ?_, ?_⟩
      · intro i hi
        rw [hget i (hmemlt i hi), if_pos hi]
      · intro i hi hni
        rw [hget i hi, if_neg hni]
      · intro i hi hs1 hw
        rw [hget i (hmemlt i hi), if_pos hi]
        show (p_x.getD i dRow).2 / s ≠ (p_x.getD i dRow).2
        intro heq
        have hsne : s ≠ 0 := fun h0 => hz ⟨List.ne_nil_of_mem hi, h0⟩
        rw [div_eq_iff hsne] at heq
        have hws : (p_x.getD i dRow).2 * s = (p_x.getD i dRow).2 * 1 := by
          rw [mul_one]; exact heq.symm
        exact hs1 (mul_left_cancel₀ hw hws)
  · rw [if_neg hone] at hok
    injection hok with hok
    have hkeep : keep = keep0 := (congrArg Prod.snd hok).symm
    subst hkeep
    exact absurd (not_not.mp hone) hlen

/-- Witness for claim C10's amended theorem: on a two-row factor with
weights 1/2 and 1/4 (sum 3/4) and an all-wildcard query, the stored first
row's weight after the call differs from its weight before. -/
theorem C10_witness :
    (([([('+', 'a')], (2 : ℚ)/3), ([('-', 'a')], 1/3)] : List Row).getD 0 dRow).2 ≠
      (([([('+', 'a')], (1 : ℚ)/2), ([('-', 'a')], 1/4)] : List Row).getD 0 dRow).2 :=
  (C10_solve_mutates [([('+', 'a')], (1 : ℚ)/2), ([('-', 'a')], 1/4)] [none]
      [([('+', 'a')], (2 : ℚ)/3), ([('-', 'a')], 1/3)] [0, 1]
      (by norm_num [BayesNet.solve, BayesNet.rowMatches, List.range_succ,
        List.enum, List.enumFrom])
      (by decide)).2.2.2.2 0 (by decide)
      (by norm_num [dRow]) (by norm_num [dRow])

/-- Insert a zero bit: `insZ H j` spreads `j` so that the block of size `H`
at the insertion point becomes free; for `H = 2 ^ p` this inserts a zero at
bit `p`. -/
def insZ (H j : Nat) : Nat := 2 * H * (j / H) + j % H

theorem nat_div_mod_spec {a b q r : Nat} (hb : 0 < b) (heq : a = b * q + r) (hr : r < b) :
    a / b = q ∧ a % b = r := by
  subst heq
  constructor
  · rw [Nat.mul_add_div hb, Nat.div_eq_of_lt hr]
    omega
  · rw [Nat.mul_add_mod, Nat.mod_eq_of_lt hr]


theorem nat_div_spec {a b q r : Nat} (hb : 0 < b) (heq : a = b * q + r) (hr : r < b) :
    a / b = q := (nat_div_mod_spec hb heq hr).1

theorem nat_mod_spec {a b q r : Nat} (hb : 0 < b) (heq : a = b * q + r) (hr : r < b) :
    a % b = r := (nat_div_mod_spec hb heq hr).2

theorem mod_up (H i : Nat) (hH : 0 < H) (h : i % (2 * H) < H) :
    (i + H) % (2 * H) = i % (2 * H) + H := by
  have hd := Nat.div_add_mod i (2 * H)
  have h2 : i + H = 2 * H * (i / (2 * H)) + (i % (2 * H) + H) := by omega
  exact (nat_div_mod_spec (by omega) h2 (by omega)).2

theorem mod_down (H i : Nat) (hH : 0 < H) (h : ¬ i % (2 * H) < H) :
    H ≤ i ∧ (i - H) % (2 * H) = i % (2 * H) - H := by
  have hd := Nat.div_add_mod i (2 * H)
  have hm : i % (2 * H) < 2 * H := Nat.mod_lt _ (by omega)
  have hHi : H ≤ i := by omega
  have h2 : i - H = 2 * H * (i / (2 * H)) + (i % (2 * H) - H) := by omega
  exact ⟨hHi, (nat_div_mod_spec (by omega) h2 (by omega)).2⟩

theorem bnFold_invariant (p_x : List Row) (k H : Nat) (hH : 0 < H) (n : Nat) :
    (List.range n).foldl (BayesNet.bnStep p_x k H) ([], []) =
      (((List.range n).filter (fun i => decide (i % (2 * H) < H))).map (fun i =>
          ((p_x.getD i dRow).1.take k ++ (p_x.getD i dRow).1.drop (k + 1),
           (p_x.getD i dRow).2 + (p_x.getD (i + H) dRow).2)),
       ((List.range n).filter (fun i => decide (i % (2 * H) < H))).map (fun i => i + H)) := by
  induction n with
  | zero => rfl
  | succ n ih =>
    rw [List.range_succ, List.foldl_append, List.foldl_cons, List.foldl_nil, ih]
    by_cases hP : n % (2 * H) < H
    · have hnotin : n ∉ ((List.range n).filter
          (fun i => decide (i % (2 * H) < H))).map (fun i => i + H) := by
        intro hmem
        obtain ⟨i, hi, hin⟩ := List.mem_map.1 hmem
        have hPi : i % (2 * H) < H := of_decide_eq_true (List.mem_filter.1 hi).2
        have hup := mod_up H i hH hPi
        rw [← hin] at hP
        omega
      unfold BayesNet.bnStep
      dsimp only
      rw [if_neg hnotin, List.filter_append, List.filter_cons, List.filter_nil,
        decide_eq_true hP]
      simp
    · have hin : n ∈ ((List.range n).filter
          (fun i => decide (i % (2 * H) < H))).map (fun i => i + H) := by
        obtain ⟨hHn, hmod⟩ := mod_down H n hH hP
        refine List.mem_map.2
          ⟨n - H, List.mem_filter.2 ⟨List.mem_range.2 (by omega), ?_⟩, by omega⟩
        rw [decide_eq_true_eq, hmod]
        have : n % (2 * H) < 2 * H := Nat.mod_lt _ (by omega)
        omega
      unfold BayesNet.bnStep
      dsimp only
      rw [if_pos hin, List.filter_append, List.filter_cons, List.filter_nil,
        decide_eq_false hP]
      simp

theorem bn_sum_out_filter (t : List Row) (m k : Nat) (hk : k < m)
    (hlen : t.length = 2 ^ m) :
    BayesNet.sum_out t k =
      ((List.range (2 ^ m)).filter
        (fun i => decide (i % (2 * 2 ^ (m - 1 - k)) < 2 ^ (m - 1 - k)))).map (fun i =>
          ((t.getD i dRow).1.take k ++ (t.getD i dRow).1.drop (k + 1),
           (t.getD i dRow).2 + (t.getD (i + 2 ^ (m - 1 - k)) dRow).2)) := by
  unfold BayesNet.sum_out
  have hH : (2 : Nat) ^ m >>> (1 + k) = 2 ^ (m - 1 - k) := by
    rw [Nat.shiftRight_eq_div_pow, Nat.pow_div (by omega) (by omega)]
    congr 1
    omega
  rw [hlen, hH,
    bnFold_invariant t k (2 ^ (m - 1 - k)) (Nat.pos_pow_of_pos _ (by omega)) (2 ^ m)]

theorem range_filter_lt (a b : Nat) (hab : a ≤ b) :
    (List.range b).filter (fun r => decide (r < a)) = List.range a := by
  induction b with
  | zero =>
    have h0 : a = 0 := by omega
    subst h0; rfl
  | succ b ih =>
    by_cases h : a ≤ b
    · rw [List.range_succ, List.filter_append, ih h, List.filter_cons, List.filter_nil,
        decide_eq_false (by omega)]
      simp
    · have h1 : a = b + 1 := by omega
      subst h1
      apply List.filter_eq_self.2
      intro x hx
      exact decide_eq_true (List.mem_range.1 hx)

theorem insZ_mod (H j : Nat) (hH : 0 < H) : insZ H j % (2 * H) = j % H := by
  unfold insZ
  rw [Nat.mul_add_mod]
  exact Nat.mod_eq_of_lt (lt_of_lt_of_le (Nat.mod_lt _ hH) (by omega))

theorem insZ_lt (H M j : Nat) (hH : 0 < H) (hj : j < M * H) : insZ H j < M * (2 * H) := by
  unfold insZ
  have hq : j / H < M := (Nat.div_lt_iff_lt_mul hH).2 hj
  have hr : j % H < H := Nat.mod_lt _ hH
  have h1 : 2 * H * (j / H + 1) ≤ 2 * H * M := Nat.mul_le_mul_left _ (by omega)
  have h2 : 2 * H * (j / H + 1) = 2 * H * (j / H) + 2 * H := by ring
  have h3 : M * (2 * H) = 2 * H * M := by ring
  omega

theorem add_H_lt (H M X : Nat) (hH : 0 < H) (hX : X < M * (2 * H))
    (hm : X % (2 * H) < H) : X + H < M * (2 * H) := by
  have hd := Nat.div_add_mod X (2 * H)
  have hq : X / (2 * H) < M := by
    by_contra hc
    push_neg at hc
    have hle : 2 * H * M ≤ 2 * H * (X / (2 * H)) := Nat.mul_le_mul_left _ hc
    have h3 : M * (2 * H) = 2 * H * M := by ring
    omega
  have h1 : 2 * H * (X / (2 * H) + 1) ≤ 2 * H * M := Nat.mul_le_mul_left _ (by omega)
  have h2 : 2 * H * (X / (2 * H) + 1) = 2 * H * (X / (2 * H)) + 2 * H := by ring
  have h3 : M * (2 * H) = 2 * H * M := by ring
  omega

theorem mod_headroom (A E r : Nat) (hA : 0 < A) (hdvd : 2 * A ∣ E) (hr : r < E)
    (hm : r % (2 * A) < A) : r + A < E := by
  obtain ⟨c, hc⟩ := hdvd
  have hd := Nat.div_add_mod r (2 * A)
  have hq : r / (2 * A) < c := by
    by_contra hcon
    push_neg at hcon
    have hle : 2 * A * c ≤ 2 * A * (r / (2 * A)) := Nat.mul_le_mul_left _ hcon
    omega
  have h1 : 2 * A * (r / (2 * A) + 1) ≤ 2 * A * c := Nat.mul_le_mul_left _ (by omega)
  have h2 : 2 * A * (r / (2 * A) + 1) = 2 * A * (r / (2 * A)) + 2 * A := by ring
  omega

theorem insZ_add_small (H A X : Nat) (hA : 0 < A) (hH : 0 < H) (hdvd : 2 * A ∣ H)
    (hX : X % (2 * A) < A) : insZ H (X + A) = insZ H X + A := by
  have hmm : X % H % (2 * A) = X % (2 * A) := Nat.mod_mod_of_dvd X hdvd
  have hrH : X % H < H := Nat.mod_lt _ hH
  have hroom : X % H + A < H := mod_headroom A H (X % H) hA hdvd hrH (by rw [hmm]; exact hX)
  have hd := Nat.div_add_mod X H
  have hspec := nat_div_mod_spec (a := X + A) (b := H) (q := X / H) (r := X % H + A)
    hH (by omega) hroom
  show 2 * H * ((X + A) / H) + (X + A) % H = 2 * H * (X / H) + X % H + A
  rw [hspec.1, hspec.2]
  omega

theorem insZ_add_big (H A y : Nat) (hH : 0 < H) (hdvd : H ∣ A) :
    insZ H (y + A) = insZ H y + 2 * A := by
  obtain ⟨c, hc⟩ := hdvd
  subst hc
  show 2 * H * ((y + H * c) / H) + (y + H * c) % H = 2 * H * (y / H) + y % H + 2 * (H * c)
  rw [Nat.add_mul_div_left _ _ hH, Nat.add_mul_mod_self_left]
  ring

theorem insZ_insZ (B C j : Nat) (hB : 0 < B) (hC : 0 < C) :
    insZ (2 * (B * C)) (insZ B j) = insZ B (insZ (B * C) j) := by
  have hBC : 0 < B * C := Nat.mul_pos hB hC
  have hd1 : B * C * (j / (B * C)) + j % (B * C) = j := Nat.div_add_mod j (B * C)
  have hr1lt : j % (B * C) < B * C := Nat.mod_lt _ hBC
  have hd2 : B * (j % (B * C) / B) + j % (B * C) % B = j % (B * C) :=
    Nat.div_add_mod (j % (B * C)) B
  have hwlt : j % (B * C) % B < B := Nat.mod_lt _ hB
  have hvlt : j % (B * C) / B < C :=
    (Nat.div_lt_iff_lt_mul hB).2 (by rw [Nat.mul_comm C B]; exact hr1lt)
  set u := j / (B * C)
  set v := j % (B * C) / B
  set w := j % (B * C) % B
  have hj : j = B * (C * u + v) + w := by rw [← hd1, ← hd2]; ring
  have hjd : j / B = C * u + v := nat_div_spec hB hj hwlt
  have hjm : j % B = w := nat_mod_spec hB hj hwlt
  have hX : insZ B j = 2 * (B * C) * u + (2 * B * v + w) := by
    show 2 * B * (j / B) + j % B = _
    rw [hjd, hjm]; ring
  have hbound : 2 * B * v + w < 2 * (B * C) := by
    have h1 : 2 * B * (v + 1) ≤ 2 * B * C := Nat.mul_le_mul_left _ (by omega)
    have h2 : 2 * B * (v + 1) = 2 * B * v + 2 * B := by ring
    have h3 : 2 * (B * C) = 2 * B * C := by ring
    omega
  have hXd : insZ B j / (2 * (B * C)) = u := nat_div_spec (by omega) hX hbound
  have hXm : insZ B j % (2 * (B * C)) = 2 * B * v + w := nat_mod_spec (by omega) hX hbound
  have hY : insZ (B * C) j = B * (2 * (C * u) + v) + w := by
    show 2 * (B * C) * (j / (B * C)) + j % (B * C) = _
    rw [← hd2]; ring
  have hYd : insZ (B * C) j / B = 2 * (C * u) + v := nat_div_spec hB hY hwlt
  have hYm : insZ (B * C) j % B = w := nat_mod_spec hB hY hwlt
  show 2 * (2 * (B * C)) * (insZ B j / (2 * (B * C))) + insZ B j % (2 * (B * C)) =
    2 * B * (insZ (B * C) j / B) + insZ (B * C) j % B
  rw [hXd, hXm, hYd, hYm]
  ring

theorem filter_mod_eq_map_insZ (H : Nat) (hH : 0 < H) (M : Nat) :
    (List.range (M * (2 * H))).filter (fun i => decide (i % (2 * H) < H)) =
      (List.range (M * H)).map (insZ H) := by
  induction M with
  | zero => simp
  | succ M ih =>
    have hr1 : (M + 1) * (2 * H) = M * (2 * H) + 2 * H := by ring
    have hr2 : (M + 1) * H = M * H + H := by ring
    rw [hr1, hr2, List.range_add, List.range_add, List.filter_append, List.map_append, ih]
    congr 1
    rw [List.filter_map, List.map_map]
    have hblock : List.filter ((fun i => decide (i % (2 * H) < H)) ∘
        (fun x => M * (2 * H) + x)) (List.range (2 * H)) = List.range H := by
      have hcong : ∀ x ∈ List.range (2 * H),
          ((fun i => decide (i % (2 * H) < H)) ∘ (fun x => M * (2 * H) + x)) x =
            decide (x < H) := by
        intro x hx
        have hx2 : x < 2 * H := List.mem_range.1 hx
        have hmod : (M * (2 * H) + x) % (2 * H) = x :=
          nat_mod_spec (by omega) (by ring) hx2
        simp only [Function.comp]
        rw [hmod]
      rw [List.filter_congr hcong, range_filter_lt H (2 * H) (by omega)]
    rw [hblock]
    apply List.map_congr_left
    intro r hr
    have hrH : r < H := List.mem_range.1 hr
    have h1 : insZ H (M * H + r) = 2 * H * M + r := by
      have hd : M * H + r = H * M + r := by ring
      have hdd : (M * H + r) / H = M := nat_div_spec hH hd hrH
      have hmm : (M * H + r) % H = r := nat_mod_spec hH hd hrH
      show 2 * H * ((M * H + r) / H) + (M * H + r) % H = _
      rw [hdd, hmm]
    show M * (2 * H) + r = insZ H (M * H + r)
    rw [h1]
    have hc : M * (2 * H) = 2 * H * M := by ring
    omega

theorem getD_map_range (f : Nat → Row) (M x : Nat) (hx : x < M) :
    ((List.range M).map f).getD x dRow = f x := by
  have h1 : x < ((List.range M).map f).length := by
    rw [List.length_map, List.length_range]; exact hx
  rw [List.getD_eq_getElem _ _ h1, List.getElem_map, List.getElem_range]

theorem bn_sum_out_map (t : List Row) (m k : Nat) (hk : k < m) (hlen : t.length = 2 ^ m) :
    BayesNet.sum_out t k =
      (List.range (2 ^ (m - 1))).map (fun j =>
        ((t.getD (insZ (2 ^ (m - 1 - k)) j) dRow).1.take k ++
         (t.getD (insZ (2 ^ (m - 1 - k)) j) dRow).1.drop (k + 1),
         (t.getD (insZ (2 ^ (m - 1 - k)) j) dRow).2 +
         (t.getD (insZ (2 ^ (m - 1 - k)) j + 2 ^ (m - 1 - k)) dRow).2)) := by
  have hM2H : (2 : Nat) ^ m = 2 ^ k * (2 * 2 ^ (m - 1 - k)) := by
    have h2H : 2 * 2 ^ (m - 1 - k) = 2 ^ (m - k) := by
      rw [mul_comm, ← pow_succ]
      congr 1
      omega
    rw [h2H, ← pow_add]
    congr 1
    omega
  have hMH : (2 : Nat) ^ k * 2 ^ (m - 1 - k) = 2 ^ (m - 1) := by
    rw [← pow_add]; congr 1; omega
  rw [bn_sum_out_filter t m k hk hlen, hM2H,
    filter_mod_eq_map_insZ (2 ^ (m - 1 - k)) (Nat.pos_pow_of_pos _ (by omega)) (2 ^ k),
    hMH, List.map_map]
  rfl

theorem eraseIdx_eraseIdx {α : Type} : ∀ (l : List α) (k1 k2 : Nat), k1 < k2 →
    (l.eraseIdx k1).eraseIdx (k2 - 1) = (l.eraseIdx k2).eraseIdx k1 := by
  intro l
  induction l with
  | nil => intro k1 k2 h; simp [List.eraseIdx]
  | cons x xs ih =>
    intro k1 k2 h
    cases k1 with
    | zero =>
      cases k2 with
      | zero => omega
      | succ k2 =>
        have e3 : k2 + 1 - 1 = k2 := by omega
        show xs.eraseIdx (k2 + 1 - 1) = (x :: xs.eraseIdx k2).eraseIdx 0
        rw [e3]
        rfl
    | succ k1 =>
      cases k2 with
      | zero => omega
      | succ k2 =>
        have h2 : k1 < k2 := by omega
        have e3 : k2 + 1 - 1 = (k2 - 1) + 1 := by omega
        show (x :: xs.eraseIdx k1).eraseIdx (k2 + 1 - 1) =
          (x :: xs.eraseIdx k2).eraseIdx (k1 + 1)
        rw [e3]
        show x :: (xs.eraseIdx k1).eraseIdx (k2 - 1) = x :: (xs.eraseIdx k2).eraseIdx k1
        rw [ih k1 k2 h2]

theorem bn_sum_out_comm_lt (t : List Row) (m k1 k2 : Nat) (hlen : t.length = 2 ^ m)
    (h12 : k1 < k2) (hk2 : k2 < m) :
    BayesNet.sum_out (BayesNet.sum_out t k1) (k2 - 1) =
      BayesNet.sum_out (BayesNet.sum_out t k2) k1 := by
  have hk1 : k1 < m := by omega
  have hH1pos : 0 < (2 : Nat) ^ (m - 1 - k1) := Nat.pos_pow_of_pos _ (by omega)
  have hH2pos : 0 < (2 : Nat) ^ (m - 1 - k2) := Nat.pos_pow_of_pos _ (by omega)
  have hHBpos : 0 < (2 : Nat) ^ (m - 2 - k1) := Nat.pos_pow_of_pos _ (by omega)
  have hCpos : 0 < (2 : Nat) ^ (k2 - k1 - 1) := Nat.pos_pow_of_pos _ (by omega)
  have h2H2 : 2 * (2 : Nat) ^ (m - 1 - k2) = 2 ^ (m - k2) := by
    rw [mul_comm, ← pow_succ]; congr 1; omega
  have h2HB : 2 * (2 : Nat) ^ (m - 2 - k1) = 2 ^ (m - 1 - k1) := by
    rw [mul_comm, ← pow_succ]; congr 1; omega
  have hMH2 : (2 : Nat) ^ (k2 - 1) * 2 ^ (m - 1 - k2) = 2 ^ (m - 2) := by
    rw [← pow_add]; congr 1; omega
  have hM2H2 : (2 : Nat) ^ (k2 - 1) * (2 * 2 ^ (m - 1 - k2)) = 2 ^ (m - 1) := by
    rw [h2H2, ← pow_add]; congr 1; omega
  have hMHB : (2 : Nat) ^ k1 * 2 ^ (m - 2 - k1) = 2 ^ (m - 2) := by
    rw [← pow_add]; congr 1; omega
  have hM2HB : (2 : Nat) ^ k1 * (2 * 2 ^ (m - 2 - k1)) = 2 ^ (m - 1) := by
    rw [h2HB, ← pow_add]; congr 1; omega
  have hdvd1 : 2 * (2 : Nat) ^ (m - 1 - k2) ∣ 2 ^ (m - 1 - k1) := by
    rw [h2H2]; exact pow_dvd_pow 2 (by omega)
  have hdvd2 : (2 : Nat) ^ (m - 1 - k2) ∣ 2 ^ (m - 2 - k1) := pow_dvd_pow 2 (by omega)
  have hHBCC : (2 : Nat) ^ (m - 1 - k2) * 2 ^ (k2 - k1 - 1) = 2 ^ (m - 2 - k1) := by
    rw [← pow_add]; congr 1; omega
  have hT1 := bn_sum_out_map t m k1 hk1 hlen
  have hT2 := bn_sum_out_map t m k2 hk2 hlen
  have hT1len : (BayesNet.sum_out t k1).length = 2 ^ (m - 1) := by
    rw [hT1, List.length_map, List.length_range]
  have hT2len : (BayesNet.sum_out t k2).length = 2 ^ (m - 1) := by
    rw [hT2, List.length_map, List.length_range]
  have hL := bn_sum_out_map (BayesNet.sum_out t k1) (m - 1) (k2 - 1) (by omega) hT1len
  have hR := bn_sum_out_map (BayesNet.sum_out t k2) (m - 1) k1 (by omega) hT2len
  rw [(by omega : m - 1 - 1 - (k2 - 1) = m - 1 - k2)] at hL
  rw [(by omega : m - 1 - 1 - k1 = m - 2 - k1)] at hR
  rw [hL, hR, (by omega : m - 1 - 1 = m - 2)]
  apply List.map_congr_left
  intro j hj
  have hjlt : j < 2 ^ (m - 2) := List.mem_range.1 hj
  -- the left side reads rows insZ H2 j and insZ H2 j + H2 of sum_out t k1
  have hXlt : insZ (2 ^ (m - 1 - k2)) j < 2 ^ (k2 - 1) * (2 * 2 ^ (m - 1 - k2)) :=
    insZ_lt _ _ _ hH2pos (by rw [hMH2]; exact hjlt)
  have hX1 : insZ (2 ^ (m - 1 - k2)) j < 2 ^ (m - 1) := by rw [← hM2H2]; exact hXlt
  have hXmod : insZ (2 ^ (m - 1 - k2)) j % (2 * 2 ^ (m - 1 - k2)) = j % 2 ^ (m - 1 - k2) :=
    insZ_mod _ _ hH2pos
  have hX2 : insZ (2 ^ (m - 1 - k2)) j + 2 ^ (m - 1 - k2) < 2 ^ (m - 1) := by
    rw [← hM2H2]
    exact add_H_lt _ _ _ hH2pos hXlt (by rw [hXmod]; exact Nat.mod_lt _ hH2pos)
  -- the right side reads rows insZ HB j and insZ HB j + HB of sum_out t k2
  have hYlt : insZ (2 ^ (m - 2 - k1)) j < 2 ^ k1 * (2 * 2 ^ (m - 2 - k1)) :=
    insZ_lt _ _ _ hHBpos (by rw [hMHB]; exact hjlt)
  have hY1 : insZ (2 ^ (m - 2 - k1)) j < 2 ^ (m - 1) := by rw [← hM2HB]; exact hYlt
  have hYmod : insZ (2 ^ (m - 2 - k1)) j % (2 * 2 ^ (m - 2 - k1)) = j % 2 ^ (m - 2 - k1) :=
    insZ_mod _ _ hHBpos
  have hY2 : insZ (2 ^ (m - 2 - k1)) j + 2 ^ (m - 2 - k1) < 2 ^ (m - 1) := by
    rw [← hM2HB]
    exact add_H_lt _ _ _ hHBpos hYlt (by rw [hYmod]; exact Nat.mod_lt _ hHBpos)
  rw [hT1, hT2, getD_map_range _ _ _ hX1, getD_map_range _ _ _ hX2,
    getD_map_range _ _ _ hY1, getD_map_range _ _ _ hY2]
  have hsmall : insZ (2 ^ (m - 1 - k1)) (insZ (2 ^ (m - 1 - k2)) j + 2 ^ (m - 1 - k2)) =
      insZ (2 ^ (m - 1 - k1)) (insZ (2 ^ (m - 1 - k2)) j) + 2 ^ (m - 1 - k2) :=
    insZ_add_small _ _ _ hH2pos hH1pos hdvd1
      (by rw [hXmod]; exact Nat.mod_lt _ hH2pos)
  have hbig : insZ (2 ^ (m - 1 - k2)) (insZ (2 ^ (m - 2 - k1)) j + 2 ^ (m - 2 - k1)) =
      insZ (2 ^ (m - 1 - k2)) (insZ (2 ^ (m - 2 - k1)) j) + 2 ^ (m - 1 - k1) := by
    rw [insZ_add_big _ _ _ hH2pos hdvd2, h2HB]
  have hIJ : insZ (2 ^ (m - 1 - k1)) (insZ (2 ^ (m - 1 - k2)) j) =
      insZ (2 ^ (m - 1 - k2)) (insZ (2 ^ (m - 2 - k1)) j) := by
    have hii := insZ_insZ (2 ^ (m - 1 - k2)) (2 ^ (k2 - k1 - 1)) j hH2pos hCpos
    rw [hHBCC] at hii
    rw [h2HB] at hii
    exact hii
  rw [hsmall, hbig, hIJ]
  simp only [← List.eraseIdx_eq_take_drop_succ]
  have harg : insZ (2 ^ (m - 1 - k2)) (insZ (2 ^ (m - 2 - k1)) j) + 2 ^ (m - 1 - k2) +
      2 ^ (m - 1 - k1) =
      insZ (2 ^ (m - 1 - k2)) (insZ (2 ^ (m - 2 - k1)) j) + 2 ^ (m - 1 - k1) +
      2 ^ (m - 1 - k2) := by omega
  rw [harg, eraseIdx_eraseIdx _ k1 k2 h12]
  refine Prod.ext rfl ?_
  show _ + _ + (_ + _) = _ + _ + (_ + _)
  ring

theorem sum_out_many_pair (nodes : List Char) (t : List Row) (a b : Char) :
    BayesNet.sum_out_many nodes t [a, b] =
      BayesNet.sum_out (BayesNet.sum_out t (nodes.indexOf a))
        (if nodes.indexOf a < nodes.indexOf b then nodes.indexOf b - 1
         else nodes.indexOf b) := by
  unfold BayesNet.sum_out_many
  simp [BayesNet.sumOutLoop]

/--
Claim C9.  On a table with `2 ^ m` rows (the code's canonically enumerated
complete factors), summing out column `k1` and then the other variable's
adjusted column, as `sum_out_many` adjusts it, gives the same table — row
for row, weights included — as summing the two out in the opposite order;
in particular `sum_out_many` over two variables is independent of the order
in which they are listed.
-/
theorem C9_sum_out_order_independent (t : List Row) (m k1 k2 : Nat)
    (hlen : t.length = 2 ^ m) (hk1 : k1 < m) (hk2 : k2 < m) (hne : k1 ≠ k2) :
    (BayesNet.sum_out (BayesNet.sum_out t k1) (if k1 < k2 then k2 - 1 else k2) =
     BayesNet.sum_out (BayesNet.sum_out t k2) (if k2 < k1 then k1 - 1 else k1)) ∧
    (∀ (nodes : List Char) (a b : Char), nodes.indexOf a = k1 → nodes.indexOf b = k2 →
      BayesNet.sum_out_many nodes t [a, b] = BayesNet.sum_out_many nodes t [b, a]) := by
  have hcore : BayesNet.sum_out (BayesNet.sum_out t k1) (if k1 < k2 then k2 - 1 else k2) =
      BayesNet.sum_out (BayesNet.sum_out t k2) (if k2 < k1 then k1 - 1 else k1) := by
    rcases Nat.lt_or_ge k1 k2 with h | h
    · rw [if_pos h, if_neg (by omega)]
      exact bn_sum_out_comm_lt t m k1 k2 hlen h hk2
    · have h2 : k2 < k1 := by omega
      rw [if_neg (by omega), if_pos h2]
      exact (bn_sum_out_comm_lt t m k2 k1 hlen h2 hk1).symm
  refine ⟨hcore, ?_⟩
  intro nodes a b hia hib
  rw [sum_out_many_pair, sum_out_many_pair, hia, hib]
  exact hcore

/-- Witness for claim C9 on a four-row canonically ordered table over the
two variables A and B. -/
theorem C9_witness :
    BayesNet.sum_out_many ['A', 'B']
        [([('+', 'a'), ('+', 'b')], (1 : ℚ)/8), ([('+', 'a'), ('-', 'b')], 3/8),
         ([('-', 'a'), ('+', 'b')], 1/4), ([('-', 'a'), ('-', 'b')], 1/4)] ['A', 'B'] =
      BayesNet.sum_out_many ['A', 'B']
        [([('+', 'a'), ('+', 'b')], (1 : ℚ)/8), ([('+', 'a'), ('-', 'b')], 3/8),
         ([('-', 'a'), ('+', 'b')], 1/4), ([('-', 'a'), ('-', 'b')], 1/4)] ['B', 'A'] :=
  (C9_sum_out_order_independent _ 2 0 1 (by rfl) (by omega) (by omega) (by omega)).2
    ['A', 'B'] 'A' 'B' (by decide) (by decide)

theorem veInner_skip (p_x : List Row) (k i : Nat) :
    ∀ (L : List Nat) (st : List Row × List Nat), i ∈ st.2 →
      L.foldl (VariableElim.veInnerStep p_x k i) st = st := by
  intro L
  induction L with
  | nil => intro st _; rfl
  | cons j L ih =>
    intro st hmem
    rw [List.foldl_cons]
    have hstep : VariableElim.veInnerStep p_x k i st j = st := by
      unfold VariableElim.veInnerStep
      rw [if_pos (Or.inl hmem)]
    rw [hstep]
    exact ih st hmem

theorem veInner_nomatch (p_x : List Row) (k i : Nat) :
    ∀ (L : List Nat) (st : List Row × List Nat),
      (∀ j ∈ L, ¬ VariableElim.vars_at (p_x.getD i dRow).1 k =
        VariableElim.vars_at (p_x.getD j dRow).1 k) →
      L.foldl (VariableElim.veInnerStep p_x k i) st = st := by
  intro L
  induction L with
  | nil => intro st _; rfl
  | cons j L ih =>
    intro st hne
    rw [List.foldl_cons]
    have hstep : VariableElim.veInnerStep p_x k i st j = st := by
      unfold VariableElim.veInnerStep
      by_cases hc : i ∈ st.2 ∨ j ∈ st.2
      · rw [if_pos hc]
      · rw [if_neg hc, if_neg (hne j (List.mem_cons_self _ _))]
    rw [hstep]
    exact ih st (fun j2 hj2 => hne j2 (List.mem_cons_of_mem _ hj2))

theorem veInner_found (p_x : List Row) (k i J : Nat) :
    ∀ (L : List Nat) (acc : List Row) (coll : List Nat),
      L.Nodup → i ∉ coll → J ∉ coll → i ∉ L → J ∈ L →
      (∀ j ∈ L, j ≠ J → ¬ VariableElim.vars_at (p_x.getD i dRow).1 k =
        VariableElim.vars_at (p_x.getD j dRow).1 k) →
      VariableElim.vars_at (p_x.getD i dRow).1 k =
        VariableElim.vars_at (p_x.getD J dRow).1 k →
      L.foldl (VariableElim.veInnerStep p_x k i) (acc, coll) =
        (acc ++ [(VariableElim.vars_at (p_x.getD i dRow).1 k,
                  (p_x.getD i dRow).2 + (p_x.getD J dRow).2)],
         coll ++ [J]) := by
  intro L
  induction L with
  | nil => intro acc coll _ _ _ _ hJ _ _; exact absurd hJ (List.not_mem_nil J)
  | cons j L ih =>
    intro acc coll hnd hic hJc hiL hJL huni hv
    have hiJ : i ≠ J := fun he => hiL (he ▸ hJL)
    rw [List.foldl_cons]
    by_cases hej : j = J
    · subst hej
      have hstep : VariableElim.veInnerStep p_x k i (acc, coll) j =
          (acc ++ [(VariableElim.vars_at (p_x.getD i dRow).1 k,
                   (p_x.getD i dRow).2 + (p_x.getD j dRow).2)], coll ++ [j]) := by
        unfold VariableElim.veInnerStep
        rw [if_neg (not_or.2 ⟨hic, hJc⟩), if_pos hv]
      rw [hstep]
      apply veInner_nomatch
      intro j2 hj2
      have hne2 : j2 ≠ j := fun he => (List.nodup_cons.1 hnd).1 (he ▸ hj2)
      exact huni j2 (List.mem_cons_of_mem _ hj2) hne2
    · have hstep : VariableElim.veInnerStep p_x k i (acc, coll) j = (acc, coll) := by
        unfold VariableElim.veInnerStep
        by_cases hc : i ∈ coll ∨ j ∈ coll
        · rw [if_pos hc]
        · rw [if_neg hc, if_neg (huni j (List.mem_cons_self _ _) hej)]
      rw [hstep]
      exact ih acc coll (List.nodup_cons.1 hnd).2 hic hJc
        (fun h => hiL (List.mem_cons_of_mem _ h))
        (by rcases List.mem_cons.1 hJL with he | hm
            · exact absurd he.symm hej
            · exact hm)
        (fun j2 hj2 hne2 => huni j2 (List.mem_cons_of_mem _ hj2) hne2) hv

theorem mem_range_shift (s n x : Nat) : x ∈ List.range' s n ↔ s ≤ x ∧ x < s + n := by
  rw [List.mem_range']
  constructor
  · rintro ⟨i, hi, hx⟩
    omega
  · intro h
    exact ⟨x - s, by omega, by omega⟩

theorem veOuter_invariant (p_x : List Row) (k : Nat) (π : Nat → Nat)
    (hπlt : ∀ i, i < p_x.length → π i < p_x.length)
    (hπne : ∀ i, i < p_x.length → π i ≠ i)
    (hπinv : ∀ i, i < p_x.length → π (π i) = i)
    (hπv : ∀ i, i < p_x.length → VariableElim.vars_at (p_x.getD i dRow).1 k =
      VariableElim.vars_at (p_x.getD (π i) dRow).1 k)
    (huniq : ∀ i j, i < p_x.length → j < p_x.length →
      VariableElim.vars_at (p_x.getD i dRow).1 k =
        VariableElim.vars_at (p_x.getD j dRow).1 k →
      j = i ∨ j = π i) :
    ∀ n, n ≤ p_x.length →
    (List.range n).foldl (fun st i =>
        (List.range' (i + 1) (p_x.length - (i + 1))).foldl
          (VariableElim.veInnerStep p_x k i) st) ([], []) =
      (((List.range n).filter (fun i => decide (i < π i))).map (fun i =>
          (VariableElim.vars_at (p_x.getD i dRow).1 k,
           (p_x.getD i dRow).2 + (p_x.getD (π i) dRow).2)),
       ((List.range n).filter (fun i => decide (i < π i))).map π) := by
  intro n
  induction n with
  | zero => intro _; rfl
  | succ n ih =>
    intro hn
    have hn2 : n ≤ p_x.length := by omega
    have hnlt : n < p_x.length := by omega
    rw [List.range_succ, List.foldl_append, List.foldl_cons, List.foldl_nil, ih hn2]
    have hmemC : n ∈ ((List.range n).filter (fun i => decide (i < π i))).map π ↔
        π n < n := by
      constructor
      · intro hm
        obtain ⟨i, hi, hπi⟩ := List.mem_map.1 hm
        have hilt : i < n := List.mem_range.1 (List.mem_filter.1 hi).1
        have hiπ : i < π i := of_decide_eq_true (List.mem_filter.1 hi).2
        have hiN : i < p_x.length := by omega
        have hpn : π n = i := by rw [← hπi, hπinv i hiN]
        omega
      · intro hm
        refine List.mem_map.2
          ⟨π n, List.mem_filter.2 ⟨List.mem_range.2 hm, ?_⟩, hπinv n hnlt⟩
        rw [decide_eq_true_eq, hπinv n hnlt]
        exact hm
    by_cases hcase : π n < n
    · rw [veInner_skip p_x k n _ _ (hmemC.2 hcase)]
      rw [List.filter_append, List.filter_cons, List.filter_nil,
        decide_eq_false (by omega : ¬ n < π n)]
      simp
    · have hlt : n < π n := by
        have := hπne n hnlt
        omega
      have hπnN : π n < p_x.length := hπlt n hnlt
      have hJnotC : π n ∉ ((List.range n).filter (fun i => decide (i < π i))).map π := by
        intro hm
        obtain ⟨i, hi, hπi⟩ := List.mem_map.1 hm
        have hilt : i < n := List.mem_range.1 (List.mem_filter.1 hi).1
        have hiN : i < p_x.length := by omega
        have : i = n := by
          have h1 : π (π i) = π (π n) := by rw [hπi]
          rw [hπinv i hiN, hπinv n hnlt] at h1
          exact h1
        omega
      have hstep := veInner_found p_x k n (π n)
        (List.range' (n + 1) (p_x.length - (n + 1)))
        (((List.range n).filter (fun i => decide (i < π i))).map (fun i =>
          (VariableElim.vars_at (p_x.getD i dRow).1 k,
           (p_x.getD i dRow).2 + (p_x.getD (π i) dRow).2)))
        (((List.range n).filter (fun i => decide (i < π i))).map π)
        (List.nodup_range' _ _)
        (fun hm => (by omega : ¬ π n < n) (hmemC.1 hm))
        hJnotC
        (fun hm => by have := (mem_range_shift _ _ _).1 hm; omega)
        ((mem_range_shift _ _ _).2 ⟨by omega, by omega⟩)
        (by
          intro j hj hne heq
          have hjb := (mem_range_shift _ _ _).1 hj
          have hjN : j < p_x.length := by omega
          rcases huniq n j hnlt hjN heq with he | he
          · omega
          · exact hne he)
        (hπv n hnlt)
      rw [hstep]
      rw [List.filter_append, List.filter_cons, List.filter_nil, decide_eq_true hlt]
      simp

theorem ve_sum_out_char (p_x : List Row) (k : Nat) (π : Nat → Nat)
    (hπlt : ∀ i, i < p_x.length → π i < p_x.length)
    (hπne : ∀ i, i < p_x.length → π i ≠ i)
    (hπinv : ∀ i, i < p_x.length → π (π i) = i)
    (hπv : ∀ i, i < p_x.length → VariableElim.vars_at (p_x.getD i dRow).1 k =
      VariableElim.vars_at (p_x.getD (π i) dRow).1 k)
    (huniq : ∀ i j, i < p_x.length → j < p_x.length →
      VariableElim.vars_at (p_x.getD i dRow).1 k =
        VariableElim.vars_at (p_x.getD j dRow).1 k →
      j = i ∨ j = π i) :
    VariableElim.sum_out p_x k =
      ((List.range p_x.length).filter (fun i => decide (i < π i))).map (fun i =>
        (VariableElim.vars_at (p_x.getD i dRow).1 k,
         (p_x.getD i dRow).2 + (p_x.getD (π i) dRow).2)) := by
  unfold VariableElim.sum_out
  rw [veOuter_invariant p_x k π hπlt hπne hπinv hπv huniq p_x.length le_rfl]

/-- The sign character of a boolean: `true` is the positive sign, matching
the code's convention that a clear bit yields a plus sign. -/
def signCh (b : Bool) : Char := if b then '+' else '-'

/-- The label row a factor over scope `s` carries for the sign vector
`bs`. -/
def rowOf (s : List Char) (bs : List Bool) : List Label :=
  List.zipWith (fun c b => (signCh b, c)) s bs

/-- All sign vectors of a given length. -/
def allBools : Nat → List (List Bool)
  | 0 => [[]]
  | n + 1 => (allBools n).flatMap (fun bs => [true :: bs, false :: bs])

theorem sum_map_const {α : Type} (l : List α) (c : Nat) :
    (l.map (fun _ => c)).sum = c * l.length := by
  induction l with
  | nil => simp
  | cons x xs ih => simp [ih]; ring

theorem length_allBools (n : Nat) : (allBools n).length = 2 ^ n := by
  induction n with
  | zero => rfl
  | succ n ih =>
    rw [allBools, List.length_flatMap]
    have hmap : List.map (List.length ∘ fun bs => [true :: bs, false :: bs]) (allBools n) =
        List.map (fun _ => 2) (allBools n) := by
      apply List.map_congr_left
      intro bs _
      rfl
    rw [hmap, sum_map_const, ih]
    ring

theorem mem_allBools (n : Nat) : ∀ bs, bs ∈ allBools n ↔ bs.length = n := by
  induction n with
  | zero =>
    intro bs
    constructor
    · intro h
      rcases List.mem_cons.1 h with he | hm
      · rw [he]; rfl
      · exact absurd hm (List.not_mem_nil bs)
    · intro h
      have : bs = [] := List.eq_nil_of_length_eq_zero h
      rw [this]; exact List.mem_cons_self _ _
  | succ n ih =>
    intro bs
    rw [allBools, List.mem_flatMap]
    constructor
    · rintro ⟨x, hx, hbs⟩
      have hxl : x.length = n := (ih x).1 hx
      rcases List.mem_cons.1 hbs with he | hm
      · rw [he, List.length_cons, hxl]
      · rcases List.mem_cons.1 hm with he | hm2
        · rw [he, List.length_cons, hxl]
        · exact absurd hm2 (List.not_mem_nil bs)
    · intro h
      cases bs with
      | nil => cases h
      | cons b tail =>
        have htl : tail.length = n := by simpa using h
        refine ⟨tail, (ih tail).2 htl, ?_⟩
        cases b
        · exact List.mem_cons_of_mem _ (List.mem_cons_self _ _)
        · exact List.mem_cons_self _ _

theorem sum_ite_eq_countP {α : Type} (l : List α) (p : α → Bool) :
    (l.map (fun x => if p x then 1 else 0)).sum = l.countP p := by
  induction l with
  | nil => rfl
  | cons x xs ih =>
    rw [List.map_cons, List.sum_cons, List.countP_cons, ih]
    by_cases h : p x
    · simp only [h, if_true]; omega
    · simp only [h, if_false]; omega

theorem countP_self_allBools (n : Nat) : ∀ c : List Bool, c.length = n →
    (allBools n).countP (fun bs => decide (bs = c)) = 1 := by
  induction n with
  | zero =>
    intro c hc
    have hcn : c = [] := List.eq_nil_of_length_eq_zero hc
    subst hcn
    rfl
  | succ n ih =>
    intro c hc
    cases c with
    | nil => cases hc
    | cons b ct =>
      have hct : ct.length = n := by simpa using hc
      rw [allBools, List.countP_flatMap]
      have hmap : List.map ((List.countP fun bs => decide (bs = b :: ct)) ∘
          fun bs => [true :: bs, false :: bs]) (allBools n) =
          List.map (fun x => if decide (x = ct) = true then 1 else 0) (allBools n) := by
        apply List.map_congr_left
        intro x _
        show List.countP _ [true :: x, false :: x] = _
        rw [List.countP_cons, List.countP_cons, List.countP_nil]
        cases b
        · by_cases hx : x = ct
          · subst hx
            rw [decide_eq_true (show (false : Bool) :: x = false :: x from rfl)]
            rw [decide_eq_false (show ¬ (true : Bool) :: x = false :: x by simp)]
            simp
          · rw [decide_eq_false (by simp [hx]), decide_eq_false (by simp [hx]),
              decide_eq_false hx]
            simp
        · by_cases hx : x = ct
          · subst hx
            rw [decide_eq_true (show (true : Bool) :: x = true :: x from rfl)]
            rw [decide_eq_false (show ¬ (false : Bool) :: x = true :: x by simp)]
            simp
          · rw [decide_eq_false (by simp [hx]), decide_eq_false (by simp [hx]),
              decide_eq_false hx]
            simp
      rw [hmap, sum_ite_eq_countP, ih ct hct]

theorem countP_eraseIdx_allBools : ∀ (n k : Nat) (c : List Bool), k < n →
    c.length = n - 1 →
    (allBools n).countP (fun bs => decide (bs.eraseIdx k = c)) = 2 := by
  intro n
  induction n with
  | zero => intro k c hk; omega
  | succ n ih =>
    intro k c hk hc
    rw [allBools, List.countP_flatMap]
    cases k with
    | zero =>
      have hcn : c.length = n := by omega
      have hmap : List.map ((List.countP fun bs => decide (bs.eraseIdx 0 = c)) ∘
          fun bs => [true :: bs, false :: bs]) (allBools n) =
          List.map (fun x => if decide (x = c) = true then 2 else 0) (allBools n) := by
        apply List.map_congr_left
        intro x _
        show List.countP _ [true :: x, false :: x] = _
        rw [List.countP_cons, List.countP_cons, List.countP_nil]
        have h1 : (true :: x).eraseIdx 0 = x := rfl
        have h2 : (false :: x).eraseIdx 0 = x := rfl
        rw [h1, h2]
        by_cases hx : x = c
        · rw [decide_eq_true hx]; simp
        · rw [decide_eq_false hx]; simp
      rw [hmap]
      have hsum : (List.map (fun x => if decide (x = c) = true then 2 else 0)
          (allBools n)).sum = 2 * (allBools n).countP (fun x => decide (x = c)) := by
        induction allBools n with
        | nil => rfl
        | cons y ys ihy =>
          rw [List.map_cons, List.sum_cons, List.countP_cons, ihy]
          by_cases hy : y = c
          · rw [decide_eq_true hy]; simp; omega
          · rw [decide_eq_false hy]; simp
      rw [hsum, countP_self_allBools n c hcn]
    | succ k =>
      have hn : k < n := by omega
      cases c with
      | nil =>
        simp at hc
        omega
      | cons ch ct =>
        have hct : ct.length = n - 1 := by
          have := hc
          simp at this
          omega
        have hmap : List.map ((List.countP fun bs =>
            decide (bs.eraseIdx (k + 1) = ch :: ct)) ∘
            fun bs => [true :: bs, false :: bs]) (allBools n) =
            List.map (fun x => if decide (x.eraseIdx k = ct) = true then 1 else 0)
              (allBools n) := by
          apply List.map_congr_left
          intro x _
          show List.countP _ [true :: x, false :: x] = _
          rw [List.countP_cons, List.countP_cons, List.countP_nil]
          have h1 : (true :: x).eraseIdx (k + 1) = true :: x.eraseIdx k := rfl
          have h2 : (false :: x).eraseIdx (k + 1) = false :: x.eraseIdx k := rfl
          rw [h1, h2]
          by_cases hx : x.eraseIdx k = ct
          · subst hx
            cases ch
            · rw [decide_eq_true (show (false : Bool) :: x.eraseIdx k =
                  false :: x.eraseIdx k from rfl),
                decide_eq_false (show ¬ (true : Bool) :: x.eraseIdx k =
                  false :: x.eraseIdx k by simp), decide_eq_true rfl]
              simp
            · rw [decide_eq_true (show (true : Bool) :: x.eraseIdx k =
                  true :: x.eraseIdx k from rfl),
                decide_eq_false (show ¬ (false : Bool) :: x.eraseIdx k =
                  true :: x.eraseIdx k by simp), decide_eq_true rfl]
              simp
          · rw [decide_eq_false (by simp [hx]), decide_eq_false (by simp [hx]),
              decide_eq_false hx]
            simp
        rw [hmap, sum_ite_eq_countP, ih k ct hn hct]

theorem vars_at_eq_eraseIdx (l : List Label) (k : Nat) :
    VariableElim.vars_at l k = l.eraseIdx k :=
  (List.eraseIdx_eq_take_drop_succ l k).symm

theorem zipWith_eraseIdx {α β γ : Type} (f : α → β → γ) :
    ∀ (s : List α) (bs : List β) (k : Nat),
    (List.zipWith f s bs).eraseIdx k = List.zipWith f (s.eraseIdx k) (bs.eraseIdx k) := by
  intro s
  induction s with
  | nil => intro bs k; simp
  | cons c s ih =>
    intro bs k
    cases bs with
    | nil => simp
    | cons b bs =>
      cases k with
      | zero => rfl
      | succ k =>
        show (f c b :: List.zipWith f s bs).eraseIdx (k + 1) =
          List.zipWith f ((c :: s).eraseIdx (k + 1)) ((b :: bs).eraseIdx (k + 1))
        have h1 : (f c b :: List.zipWith f s bs).eraseIdx (k + 1) =
            f c b :: (List.zipWith f s bs).eraseIdx k := rfl
        have h2 : (c :: s).eraseIdx (k + 1) = c :: s.eraseIdx k := rfl
        have h3 : (b :: bs).eraseIdx (k + 1) = b :: bs.eraseIdx k := rfl
        rw [h1, h2, h3]
        show f c b :: (List.zipWith f s bs).eraseIdx k =
          f c b :: List.zipWith f (s.eraseIdx k) (bs.eraseIdx k)
        rw [ih bs k]

theorem rowOf_eraseIdx (s : List Char) (bs : List Bool) (k : Nat) :
    VariableElim.vars_at (rowOf s bs) k = rowOf (s.eraseIdx k) (bs.eraseIdx k) := by
  rw [vars_at_eq_eraseIdx]
  exact zipWith_eraseIdx _ s bs k

theorem signCh_inj (b1 b2 : Bool) (h : signCh b1 = signCh b2) : b1 = b2 := by
  cases b1 <;> cases b2
  · rfl
  · exact absurd h (by decide)
  · exact absurd h (by decide)
  · rfl

theorem rowOf_inj (s : List Char) : ∀ bs1 bs2 : List Bool,
    bs1.length = s.length → bs2.length = s.length →
    rowOf s bs1 = rowOf s bs2 → bs1 = bs2 := by
  induction s with
  | nil =>
    intro bs1 bs2 h1 h2 _
    rw [List.eq_nil_of_length_eq_zero h1, List.eq_nil_of_length_eq_zero h2]
  | cons c s ih =>
    intro bs1 bs2 h1 h2 heq
    cases bs1 with
    | nil => simp at h1
    | cons b1 t1 =>
      cases bs2 with
      | nil => simp at h2
      | cons b2 t2 =>
        have ht1 : t1.length = s.length := by simpa using h1
        have ht2 : t2.length = s.length := by simpa using h2
        injection heq with hh ht
        injection hh with hs _
        rw [signCh_inj b1 b2 hs, ih t1 t2 ht1 ht2 ht]

theorem countP_eq_filter_range {α : Type} (d : α) :
    ∀ (l : List α) (P : α → Bool),
    l.countP P = ((List.range l.length).filter (fun i => P (l.getD i d))).length := by
  intro l
  induction l with
  | nil => intro P; rfl
  | cons x xs ih =>
    intro P
    rw [List.countP_cons, List.length_cons, List.range_succ_eq_map, List.filter_cons]
    have hfm : List.filter (fun i => P ((x :: xs).getD i d))
        (List.map Nat.succ (List.range xs.length)) =
        List.map Nat.succ (List.filter (fun i => P (xs.getD i d)) (List.range xs.length)) := by
      rw [List.filter_map]
      congr 1
    rw [hfm, List.getD_cons_zero]
    by_cases hP : P x
    · rw [if_pos hP, if_pos hP, List.length_cons, List.length_map, ← ih P]
    · rw [if_neg hP, if_neg hP, List.length_map, ← ih P]
      omega

theorem filter_map_sum_range {α : Type} (d : α) (g : α → ℚ) :
    ∀ (l : List α) (P : α → Bool),
    ((l.filter P).map g).sum =
      (((List.range l.length).filter (fun i => P (l.getD i d))).map
        (fun i => g (l.getD i d))).sum := by
  intro l
  induction l with
  | nil => intro P; rfl
  | cons x xs ih =>
    intro P
    rw [List.length_cons, List.range_succ_eq_map, List.filter_cons, List.filter_cons]
    have hfm : List.filter (fun i => P ((x :: xs).getD i d))
        (List.map Nat.succ (List.range xs.length)) =
        List.map Nat.succ (List.filter (fun i => P (xs.getD i d)) (List.range xs.length)) := by
      rw [List.filter_map]
      congr 1
    rw [hfm]
    have hcomp : (List.map Nat.succ (List.filter (fun i => P (xs.getD i d))
        (List.range xs.length))).map (fun i => g ((x :: xs).getD i d)) =
        (List.filter (fun i => P (xs.getD i d)) (List.range xs.length)).map
          (fun i => g (xs.getD i d)) := by
      rw [List.map_map]
      congr 1
    rw [List.getD_cons_zero]
    by_cases hP : P x
    · rw [if_pos hP, if_pos hP, List.map_cons, List.map_cons, List.sum_cons,
        List.sum_cons, hcomp, ← ih P, List.getD_cons_zero]
    · rw [if_neg hP, if_neg hP, hcomp, ← ih P]

instance : IsAntisymm Nat (fun a b : Nat => a < b) :=
  ⟨fun a b h1 h2 => absurd (h1.trans h2) (lt_irrefl a)⟩

theorem range_filter_eq_single (N : Nat) (P : Nat → Bool) (a : Nat) (haN : a < N)
    (hPa : P a = true) (honly : ∀ x, x < N → P x = true → x = a) :
    (List.range N).filter P = [a] := by
  apply List.eq_of_perm_of_sorted (r := fun x y : Nat => x < y)
  · apply List.perm_of_nodup_nodup_toFinset_eq
    · exact (List.nodup_range N).filter P
    · exact List.nodup_singleton a
    · apply Finset.ext
      intro x
      rw [List.mem_toFinset, List.mem_toFinset, List.mem_filter, List.mem_range]
      constructor
      · rintro ⟨hx, hPx⟩
        rw [honly x hx hPx]
        exact List.mem_cons_self _ _
      · intro hx
        have hxa : x = a := by simpa using hx
        subst hxa
        exact ⟨haN, hPa⟩
  · exact List.Pairwise.filter P (List.pairwise_lt_range N)
  · simp [List.Sorted]

theorem range_filter_eq_pair (N : Nat) (P : Nat → Bool) (a b : Nat) (hab : a < b)
    (hbN : b < N) (hPa : P a = true) (hPb : P b = true)
    (honly : ∀ x, x < N → P x = true → x = a ∨ x = b) :
    (List.range N).filter P = [a, b] := by
  apply List.eq_of_perm_of_sorted (r := fun x y : Nat => x < y)
  · apply List.perm_of_nodup_nodup_toFinset_eq
    · exact (List.nodup_range N).filter P
    · simp [List.Nodup, hab.ne]
    · apply Finset.ext
      intro x
      rw [List.mem_toFinset, List.mem_toFinset, List.mem_filter, List.mem_range]
      constructor
      · rintro ⟨hx, hPx⟩
        rcases honly x hx hPx with he | he <;> rw [he] <;> simp
      · intro hx
        have hxab : x = a ∨ x = b := by simpa using hx
        rcases hxab with he | he <;> subst he
        · exact ⟨by omega, hPa⟩
        · exact ⟨hbN, hPb⟩
  · exact List.Pairwise.filter P (List.pairwise_lt_range N)
  · simp [List.Sorted, hab]

theorem eraseIdx_take_cons_drop {α : Type} (a : α) :
    ∀ (c : List α) (k : Nat), k ≤ c.length →
    (c.take k ++ a :: c.drop k).eraseIdx k = c ∧
    (c.take k ++ a :: c.drop k).length = c.length + 1 := by
  intro c
  induction c with
  | nil =>
    intro k hk
    have hk0 : k = 0 := by simpa using hk
    subst hk0
    exact ⟨rfl, rfl⟩
  | cons ch ct ih =>
    intro k hk
    cases k with
    | zero => exact ⟨rfl, rfl⟩
    | succ k =>
      have hk2 : k ≤ ct.length := by simpa using hk
      obtain ⟨h1, h2⟩ := ih k hk2
      have hsh : (ch :: ct).take (k + 1) ++ a :: (ch :: ct).drop (k + 1) =
          ch :: (ct.take k ++ a :: ct.drop k) := rfl
      rw [hsh]
      constructor
      · have he : (ch :: (ct.take k ++ a :: ct.drop k)).eraseIdx (k + 1) =
            ch :: (ct.take k ++ a :: ct.drop k).eraseIdx k := rfl
        rw [he, h1]
      · rw [List.length_cons, h2, List.length_cons]

theorem filter_pair_partner (N : Nat) (Q : Nat → Bool) (i : Nat) (hiN : i < N)
    (hQi : Q i = true) (hcount : ((List.range N).filter Q).length = 2) :
    ∃ j, j < N ∧ j ≠ i ∧ Q j = true ∧
      (List.range N).filter (fun x => decide (¬ x = i) && Q x) = [j] ∧
      (∀ x, x < N → Q x = true → x = i ∨ x = j) := by
  obtain ⟨a, b, hF⟩ := List.length_eq_two.1 hcount
  have hnd : ((List.range N).filter Q).Nodup := (List.nodup_range N).filter Q
  rw [hF] at hnd
  have hab : a ≠ b := by
    intro h
    subst h
    exact (List.nodup_cons.1 hnd).1 (List.mem_cons_self a [])
  have hmemF : ∀ x, x ∈ [a, b] ↔ (x < N ∧ Q x = true) := by
    intro x
    rw [← hF, List.mem_filter, List.mem_range]
  have haQ : a < N ∧ Q a = true := (hmemF a).1 (List.mem_cons_self a [b])
  have hbQ : b < N ∧ Q b = true := (hmemF b).1 (by simp)
  have hff : (List.range N).filter (fun x => decide (¬ x = i) && Q x) =
      [a, b].filter (fun x => decide (¬ x = i)) := by
    rw [← hF, List.filter_filter]
  have hiab : i = a ∨ i = b := by
    have hm := (hmemF i).2 ⟨hiN, hQi⟩
    rcases List.mem_cons.1 hm with h | h
    · exact Or.inl h
    · exact Or.inr (by simpa using h)
  rcases hiab with hia | hib
  · subst hia
    refine ⟨b, hbQ.1, fun h => hab h.symm, hbQ.2, ?_, ?_⟩
    · rw [hff, List.filter_cons, List.filter_cons, List.filter_nil,
        decide_eq_false (not_not_intro rfl),
        decide_eq_true (show ¬ b = i from fun h => hab h.symm)]
      simp
    · intro x hx hQx
      have hm := (hmemF x).2 ⟨hx, hQx⟩
      rcases List.mem_cons.1 hm with h | h
      · exact Or.inl h
      · exact Or.inr (by simpa using h)
  · subst hib
    refine ⟨a, haQ.1, fun h => hab h, haQ.2, ?_, ?_⟩
    · rw [hff, List.filter_cons, List.filter_cons, List.filter_nil,
        decide_eq_true (show ¬ a = i from fun h => hab h),
        decide_eq_false (not_not_intro rfl)]
      simp
    · intro x hx hQx
      have hm := (hmemF x).2 ⟨hx, hQx⟩
      rcases List.mem_cons.1 hm with h | h
      · exact Or.inr h
      · exact Or.inl (by simpa using h)

/-- The index of the unique other row of a complete factor whose labels agree
with row `i` off column `k` (the row `VariableElim.sum_out` merges row `i`
with). -/
def partnerIdx (t : List Row) (k i : Nat) : Nat :=
  ((List.range t.length).filter (fun x => decide (¬ x = i) &&
    decide (VariableElim.vars_at (t.getD x dRow).1 k =
      VariableElim.vars_at (t.getD i dRow).1 k))).headD i

theorem countV_eq_two (t : List Row) (s : List Char) (k : Nat) (hk : k < s.length)
    (hc : (t.map (fun r => r.1)).Perm ((allBools s.length).map (rowOf s)))
    (bs : List Bool) (hbs : bs.length = s.length) :
    t.countP (fun r => decide (VariableElim.vars_at r.1 k =
      VariableElim.vars_at (rowOf s bs) k)) = 2 := by
  have h1 : t.countP (fun r => decide (VariableElim.vars_at r.1 k =
      VariableElim.vars_at (rowOf s bs) k)) =
      (t.map (fun r => r.1)).countP (fun L => decide (VariableElim.vars_at L k =
        VariableElim.vars_at (rowOf s bs) k)) :=
    (List.countP_map (fun L => decide (VariableElim.vars_at L k =
      VariableElim.vars_at (rowOf s bs) k)) (fun r : Row => r.1) t).symm
  have h2 : (t.map (fun r => r.1)).countP (fun L => decide (VariableElim.vars_at L k =
      VariableElim.vars_at (rowOf s bs) k)) =
      ((allBools s.length).map (rowOf s)).countP
        (fun L => decide (VariableElim.vars_at L k =
          VariableElim.vars_at (rowOf s bs) k)) :=
    hc.countP_eq _
  have h3 : ((allBools s.length).map (rowOf s)).countP
      (fun L => decide (VariableElim.vars_at L k =
        VariableElim.vars_at (rowOf s bs) k)) =
      (allBools s.length).countP (fun c => decide (VariableElim.vars_at (rowOf s c) k =
        VariableElim.vars_at (rowOf s bs) k)) :=
    List.countP_map _ _ _
  have h4 : (allBools s.length).countP
      (fun c => decide (VariableElim.vars_at (rowOf s c) k =
        VariableElim.vars_at (rowOf s bs) k)) =
      (allBools s.length).countP (fun c => decide (c.eraseIdx k = bs.eraseIdx k)) := by
    apply List.countP_congr
    intro c hcm
    have hcl : c.length = s.length := (mem_allBools s.length c).1 hcm
    rw [rowOf_eraseIdx, rowOf_eraseIdx, decide_eq_true_eq, decide_eq_true_eq]
    constructor
    · intro h
      apply rowOf_inj (s.eraseIdx k)
      · rw [List.length_eraseIdx, if_pos (by omega), List.length_eraseIdx,
          if_pos (by omega), hcl]
      · rw [List.length_eraseIdx, if_pos (by omega), List.length_eraseIdx,
          if_pos (by omega), hbs]
      · exact h
    · intro h
      rw [h]
  rw [h1, h2, h3, h4]
  exact countP_eraseIdx_allBools s.length k (bs.eraseIdx k) hk
    (by rw [List.length_eraseIdx, if_pos (by omega), hbs])

theorem partner_exists (t : List Row) (s : List Char) (k : Nat) (hk : k < s.length)
    (hc : (t.map (fun r => r.1)).Perm ((allBools s.length).map (rowOf s)))
    (i : Nat) (hiN : i < t.length) :
    partnerIdx t k i < t.length ∧ partnerIdx t k i ≠ i ∧
      VariableElim.vars_at (t.getD (partnerIdx t k i) dRow).1 k =
        VariableElim.vars_at (t.getD i dRow).1 k ∧
      ∀ x, x < t.length →
        VariableElim.vars_at (t.getD x dRow).1 k =
          VariableElim.vars_at (t.getD i dRow).1 k →
        x = i ∨ x = partnerIdx t k i := by
  have hmem : (t.getD i dRow).1 ∈ t.map (fun r => r.1) := by
    apply List.mem_map_of_mem
    rw [List.getD_eq_getElem t dRow hiN]
    exact List.getElem_mem hiN
  have hmem2 : (t.getD i dRow).1 ∈ (allBools s.length).map (rowOf s) := hc.mem_iff.1 hmem
  obtain ⟨bs, hbsmem, hbs⟩ := List.mem_map.1 hmem2
  have hbslen : bs.length = s.length := (mem_allBools s.length bs).1 hbsmem
  have h2 : t.countP (fun r => decide (VariableElim.vars_at r.1 k =
      VariableElim.vars_at (t.getD i dRow).1 k)) = 2 := by
    rw [← hbs]
    exact countV_eq_two t s k hk hc bs hbslen
  have h3 : ((List.range t.length).filter (fun x =>
      decide (VariableElim.vars_at (t.getD x dRow).1 k =
        VariableElim.vars_at (t.getD i dRow).1 k))).length = 2 := by
    rw [countP_eq_filter_range dRow t] at h2
    exact h2
  have hQi : (fun x => decide (VariableElim.vars_at (t.getD x dRow).1 k =
      VariableElim.vars_at (t.getD i dRow).1 k)) i = true := decide_eq_true rfl
  obtain ⟨j, hj1, hj2, hj3, hj4, hj5⟩ :=
    filter_pair_partner t.length _ i hiN hQi h3
  have hpj : partnerIdx t k i = j := by
    unfold partnerIdx
    rw [hj4]
    rfl
  rw [hpj]
  exact ⟨hj1, hj2, of_decide_eq_true hj3,
    fun x hx hvx => hj5 x hx (decide_eq_true hvx)⟩

theorem partnerIdx_involutive (t : List Row) (s : List Char) (k : Nat)
    (hk : k < s.length)
    (hc : (t.map (fun r => r.1)).Perm ((allBools s.length).map (rowOf s)))
    (i : Nat) (hiN : i < t.length) :
    partnerIdx t k (partnerIdx t k i) = i := by
  obtain ⟨h1, h2, h3, h4⟩ := partner_exists t s k hk hc i hiN
  obtain ⟨p1, p2, p3, p4⟩ := partner_exists t s k hk hc (partnerIdx t k i) h1
  rcases h4 (partnerIdx t k (partnerIdx t k i)) p1 (p3.trans h3) with he | he
  · exact he
  · exact absurd he p2

theorem ve_sum_out_complete (t : List Row) (s : List Char) (k : Nat) (hk : k < s.length)
    (hc : (t.map (fun r => r.1)).Perm ((allBools s.length).map (rowOf s))) :
    VariableElim.sum_out t k =
      ((List.range t.length).filter (fun i => decide (i < partnerIdx t k i))).map (fun i =>
        (VariableElim.vars_at (t.getD i dRow).1 k,
         (t.getD i dRow).2 + (t.getD (partnerIdx t k i) dRow).2)) := by
  apply ve_sum_out_char t k (partnerIdx t k)
  · intro i hi
    exact (partner_exists t s k hk hc i hi).1
  · intro i hi
    exact (partner_exists t s k hk hc i hi).2.1
  · intro i hi
    exact partnerIdx_involutive t s k hk hc i hi
  · intro i hi
    exact ((partner_exists t s k hk hc i hi).2.2.1).symm
  · intro i j hi hj hv
    exact (partner_exists t s k hk hc i hi).2.2.2 j hj hv.symm

theorem ve_unique_rep (t : List Row) (s : List Char) (k : Nat) (hk : k < s.length)
    (hc : (t.map (fun r => r.1)).Perm ((allBools s.length).map (rowOf s)))
    (c : List Bool) (hclen : c.length = s.length - 1) :
    ∃ x0, x0 < t.length ∧ x0 < partnerIdx t k x0 ∧
      VariableElim.vars_at (t.getD x0 dRow).1 k = rowOf (s.eraseIdx k) c ∧
      ∀ x, x < t.length → x < partnerIdx t k x →
        VariableElim.vars_at (t.getD x dRow).1 k = rowOf (s.eraseIdx k) c → x = x0 := by
  have hkc : k ≤ c.length := by omega
  obtain ⟨hbse, hbsl⟩ := eraseIdx_take_cons_drop true c k hkc
  have hbslen : (c.take k ++ true :: c.drop k).length = s.length := by omega
  have hbsmem : (c.take k ++ true :: c.drop k) ∈ allBools s.length :=
    (mem_allBools s.length _).2 hbslen
  have hmem : rowOf s (c.take k ++ true :: c.drop k) ∈ t.map (fun r => r.1) :=
    hc.mem_iff.2 (List.mem_map_of_mem (rowOf s) hbsmem)
  obtain ⟨r, hrt, hrl⟩ := List.mem_map.1 hmem
  obtain ⟨i0, hi0, hri⟩ := List.mem_iff_getElem.1 hrt
  have hv0 : VariableElim.vars_at (t.getD i0 dRow).1 k = rowOf (s.eraseIdx k) c := by
    rw [List.getD_eq_getElem t dRow hi0, hri, hrl, rowOf_eraseIdx, hbse]
  obtain ⟨hp1, hp2, hp3, hp4⟩ := partner_exists t s k hk hc i0 hi0
  by_cases hlt : i0 < partnerIdx t k i0
  · refine ⟨i0, hi0, hlt, hv0, ?_⟩
    intro x hx hxlt hxv
    rcases hp4 x hx (hxv.trans hv0.symm) with he | he
    · exact he
    · exfalso
      have hinv : partnerIdx t k x = i0 := by
        rw [he]
        exact partnerIdx_involutive t s k hk hc i0 hi0
      rw [hinv] at hxlt
      omega
  · have hgt : partnerIdx t k i0 < i0 := by
      rcases Nat.lt_or_ge (partnerIdx t k i0) i0 with h | h
      · exact h
      · exact absurd (Nat.lt_of_le_of_ne h (Ne.symm hp2)) hlt
    have hinv0 : partnerIdx t k (partnerIdx t k i0) = i0 :=
      partnerIdx_involutive t s k hk hc i0 hi0
    refine ⟨partnerIdx t k i0, hp1, by rw [hinv0]; exact hgt, hp3.trans hv0, ?_⟩
    intro x hx hxlt hxv
    rcases hp4 x hx (hxv.trans hv0.symm) with he | he
    · exfalso
      rw [he] at hxlt
      omega
    · exact he

theorem sum_map_add_nat {β : Type} (g : List β) (A B : β → Nat) :
    (g.map (fun c => A c + B c)).sum = (g.map A).sum + (g.map B).sum := by
  induction g with
  | nil => rfl
  | cons c cs ih =>
    simp [ih]
    omega

theorem length_eq_sum_countP {α β : Type} [DecidableEq α] (f : β → α) :
    ∀ (l : List α) (g : List β),
    (∀ x ∈ l, g.countP (fun c => decide (x = f c)) = 1) →
    (g.map (fun c => l.countP (fun x => decide (x = f c)))).sum = l.length := by
  intro l
  induction l with
  | nil =>
    intro g _
    simp
  | cons x xs ih =>
    intro g hg
    have hx : g.countP (fun c => decide (x = f c)) = 1 := hg x (List.mem_cons_self _ _)
    have hxs : ∀ y ∈ xs, g.countP (fun c => decide (y = f c)) = 1 :=
      fun y hy => hg y (List.mem_cons_of_mem _ hy)
    have hsplit : g.map (fun c => (x :: xs).countP (fun y => decide (y = f c))) =
        g.map (fun c => xs.countP (fun y => decide (y = f c)) +
          (if decide (x = f c) = true then 1 else 0)) := by
      apply List.map_congr_left
      intro c _
      rw [List.countP_cons]
    rw [hsplit, sum_map_add_nat, ih g hxs, sum_ite_eq_countP, hx, List.length_cons]

theorem ve_sum_out_count_one (t : List Row) (s : List Char) (k : Nat) (hk : k < s.length)
    (hc : (t.map (fun r => r.1)).Perm ((allBools s.length).map (rowOf s)))
    (c : List Bool) (hclen : c.length = s.length - 1) :
    (VariableElim.sum_out t k).countP
      (fun r => decide (r.1 = rowOf (s.eraseIdx k) c)) = 1 := by
  rw [ve_sum_out_complete t s k hk hc, List.countP_map, List.countP_filter,
    List.countP_eq_length_filter]
  obtain ⟨x0, hx0N, hx0lt, hx0v, hx0u⟩ := ve_unique_rep t s k hk hc c hclen
  have honly : ∀ x, x < t.length →
      ((fun a => ((fun r : Row => decide (r.1 = rowOf (s.eraseIdx k) c)) ∘ (fun i =>
        (VariableElim.vars_at (t.getD i dRow).1 k,
         (t.getD i dRow).2 + (t.getD (partnerIdx t k i) dRow).2))) a &&
        decide (a < partnerIdx t k a)) x) = true → x = x0 := by
    intro x hx hPx
    rw [Bool.and_eq_true] at hPx
    exact hx0u x hx (of_decide_eq_true hPx.2) (of_decide_eq_true hPx.1)
  rw [range_filter_eq_single t.length _ x0 hx0N
    (by rw [Bool.and_eq_true]
        exact ⟨decide_eq_true hx0v, decide_eq_true hx0lt⟩)
    honly]
  rfl

theorem ve_sum_out_length (t : List Row) (s : List Char) (k : Nat) (hk : k < s.length)
    (hc : (t.map (fun r => r.1)).Perm ((allBools s.length).map (rowOf s))) :
    (VariableElim.sum_out t k).length = 2 ^ (s.length - 1) := by
  have hall : ∀ L ∈ (VariableElim.sum_out t k).map (fun r => r.1),
      (allBools (s.length - 1)).countP
        (fun c => decide (L = rowOf (s.eraseIdx k) c)) = 1 := by
    intro L hL
    obtain ⟨r, hr, hrL⟩ := List.mem_map.1 hL
    rw [ve_sum_out_complete t s k hk hc] at hr
    obtain ⟨i, hi, hgi⟩ := List.mem_map.1 hr
    have hiN : i < t.length := List.mem_range.1 (List.mem_filter.1 hi).1
    have hmem : (t.getD i dRow).1 ∈ t.map (fun r => r.1) := by
      apply List.mem_map_of_mem
      rw [List.getD_eq_getElem t dRow hiN]
      exact List.getElem_mem hiN
    obtain ⟨bs, hbsmem, hbs⟩ := List.mem_map.1 (hc.mem_iff.1 hmem)
    have hbslen : bs.length = s.length := (mem_allBools s.length bs).1 hbsmem
    have hL2 : L = rowOf (s.eraseIdx k) (bs.eraseIdx k) := by
      rw [← hrL, ← hgi]
      show VariableElim.vars_at (t.getD i dRow).1 k = _
      rw [← hbs, rowOf_eraseIdx]
    rw [hL2]
    have hcongr : (allBools (s.length - 1)).countP
        (fun c => decide (rowOf (s.eraseIdx k) (bs.eraseIdx k) =
          rowOf (s.eraseIdx k) c)) =
        (allBools (s.length - 1)).countP (fun c => decide (c = bs.eraseIdx k)) := by
      apply List.countP_congr
      intro c hcm
      have hcl : c.length = s.length - 1 := (mem_allBools _ c).1 hcm
      rw [decide_eq_true_eq, decide_eq_true_eq]
      constructor
      · intro h
        refine (rowOf_inj (s.eraseIdx k) (bs.eraseIdx k) c ?_ ?_ h).symm
        · rw [List.length_eraseIdx, if_pos (by omega), List.length_eraseIdx,
            if_pos (by omega), hbslen]
        · rw [List.length_eraseIdx, if_pos (by omega), hcl]
      · intro h
        rw [h]
    rw [hcongr]
    exact countP_self_allBools (s.length - 1) (bs.eraseIdx k)
      (by rw [List.length_eraseIdx, if_pos (by omega), hbslen])
  have hsum := length_eq_sum_countP (rowOf (s.eraseIdx k))
    ((VariableElim.sum_out t k).map (fun r => r.1)) (allBools (s.length - 1)) hall
  have hloop : (allBools (s.length - 1)).map (fun c =>
      ((VariableElim.sum_out t k).map (fun r => r.1)).countP
        (fun L => decide (L = rowOf (s.eraseIdx k) c))) =
      (allBools (s.length - 1)).map (fun _ => 1) := by
    apply List.map_congr_left
    intro c hcm
    have hcl : c.length = s.length - 1 := (mem_allBools _ c).1 hcm
    rw [List.countP_map]
    exact ve_sum_out_count_one t s k hk hc c hcl
  rw [hloop, List.length_map, sum_map_const, length_allBools] at hsum
  omega

theorem ve_sum_out_weight (t : List Row) (s : List Char) (k : Nat) (hk : k < s.length)
    (hc : (t.map (fun r => r.1)).Perm ((allBools s.length).map (rowOf s))) :
    ∀ r ∈ VariableElim.sum_out t k,
      r.2 = ((t.filter (fun q => decide (VariableElim.vars_at q.1 k = r.1))).map
        (fun q => q.2)).sum := by
  intro r hr
  rw [ve_sum_out_complete t s k hk hc] at hr
  obtain ⟨i, hi, hgi⟩ := List.mem_map.1 hr
  have hif := List.mem_filter.1 hi
  have hiN : i < t.length := List.mem_range.1 hif.1
  have hilt : i < partnerIdx t k i := of_decide_eq_true hif.2
  obtain ⟨hp1, hp2, hp3, hp4⟩ := partner_exists t s k hk hc i hiN
  subst hgi
  show (t.getD i dRow).2 + (t.getD (partnerIdx t k i) dRow).2 =
    ((t.filter (fun q => decide (VariableElim.vars_at q.1 k =
      VariableElim.vars_at (t.getD i dRow).1 k))).map (fun q => q.2)).sum
  rw [filter_map_sum_range dRow (fun q : Row => q.2) t]
  have honly : ∀ x, x < t.length →
      ((fun x => decide (VariableElim.vars_at (t.getD x dRow).1 k =
        VariableElim.vars_at (t.getD i dRow).1 k)) x) = true →
      x = i ∨ x = partnerIdx t k i :=
    fun x hx hPx => hp4 x hx (of_decide_eq_true hPx)
  rw [range_filter_eq_pair t.length _ i (partnerIdx t k i) hilt hp1
    (decide_eq_true rfl) (decide_eq_true hp3) honly]
  simp

/--
Claim C5, counterexample.  The claim covers both cited implementations of
summing out.  `BayesNet.sum_out` merges rows positionally: row `i` is paired
with row `i + (len >> (1 + k))` regardless of labels.  On a complete factor
whose rows are not in the canonical `build_jpt` order (here rows 1 and 2 of
a two-variable table are swapped), the merged weight is not the sum of the
old rows that agree with the result row off the summed column: the result
row `([+B], 3)` merges weights `1` and `2`, while the rows of the input
agreeing with it off column 0 have weights `1` and `4`, summing to `5`.
-/
theorem C5_counterexample :
    ∃ (t : List Row) (s : List Char) (k : Nat), k < s.length ∧
      (t.map (fun r => r.1)).Perm ((allBools s.length).map (rowOf s)) ∧
      ∃ r ∈ BayesNet.sum_out t k,
        r.2 ≠ ((t.filter (fun q => decide (VariableElim.vars_at q.1 k = r.1))).map
          (fun q => q.2)).sum := by
  refine ⟨[([('+','A'),('+','B')], (1:ℚ)), ([('-','A'),('+','B')], 4),
    ([('+','A'),('-','B')], 2), ([('-','A'),('-','B')], 8)], ['A','B'], 0,
    by decide, by decide, ([('+','B')], (3:ℚ)), ?_, ?_⟩
  · norm_num [BayesNet.sum_out, BayesNet.bnStep, List.range_succ, dRow,
      Nat.shiftRight_eq_div_pow, List.getD]
  · norm_num +decide [VariableElim.vars_at, dRow, List.filter_cons,
      List.filter_nil, List.tail]

/--
Claim C5 (amended): for every factor that is complete over a scope `s` (its
rows carry, in some order, exactly one label row per assignment of `s`) and
every column index `k < |s|`, `VariableElim.sum_out` returns a factor over
the scope with column `k` dropped such that (i) it has exactly
`2 ^ (|s| - 1)` rows, (ii) every assignment of the reduced scope labels
exactly one row, and (iii) each result row's weight is the sum of the
weights of the input rows that agree with it on the reduced scope,
differing only in the summed variable's label.  (The positional
`BayesNet.sum_out` satisfies this only in the canonical row order, see the
counterexample.)
-/
theorem C5_sum_out (t : List Row) (s : List Char) (k : Nat) (hk : k < s.length)
    (hc : (t.map (fun r => r.1)).Perm ((allBools s.length).map (rowOf s))) :
    (VariableElim.sum_out t k).length = 2 ^ (s.length - 1) ∧
    (∀ c : List Bool, c.length = s.length - 1 →
      (VariableElim.sum_out t k).countP
        (fun r => decide (r.1 = rowOf (s.eraseIdx k) c)) = 1) ∧
    ∀ r ∈ VariableElim.sum_out t k,
      r.2 = ((t.filter (fun q => decide (VariableElim.vars_at q.1 k = r.1))).map
        (fun q => q.2)).sum :=
  ⟨ve_sum_out_length t s k hk hc,
   fun c hcl => ve_sum_out_count_one t s k hk hc c hcl,
   ve_sum_out_weight t s k hk hc⟩

/-- A concrete complete two-variable factor used to witness claim C5. -/
def c5t : List Row :=
  [([('+','A'),('+','B')], (1:ℚ)), ([('+','A'),('-','B')], 2),
   ([('-','A'),('+','B')], 4), ([('-','A'),('-','B')], 8)]

/-- Witness for claim C5 at a concrete complete factor over scope `AB`. -/
theorem C5_witness :
    0 < (['A','B'] : List Char).length ∧
    (c5t.map (fun r => r.1)).Perm
      ((allBools (['A','B'] : List Char).length).map (rowOf ['A','B'])) ∧
    ((VariableElim.sum_out c5t 0).length =
        2 ^ ((['A','B'] : List Char).length - 1) ∧
     (∀ c : List Bool, c.length = (['A','B'] : List Char).length - 1 →
       (VariableElim.sum_out c5t 0).countP
         (fun r => decide (r.1 =
           rowOf ((['A','B'] : List Char).eraseIdx 0) c)) = 1) ∧
     ∀ r ∈ VariableElim.sum_out c5t 0,
       r.2 = ((c5t.filter (fun q =>
         decide (VariableElim.vars_at q.1 0 = r.1))).map (fun q => q.2)).sum) :=
  ⟨by decide, by decide, C5_sum_out c5t ['A','B'] 0 (by decide) (by decide)⟩

theorem rowOf_names : ∀ (s : List Char) (b : List Bool), b.length = s.length →
    (rowOf s b).map (fun l => l.2) = s := by
  intro s
  induction s with
  | nil => intro b _; rfl
  | cons c ct ih =>
    intro b h
    cases b with
    | nil => simp at h
    | cons bb bt =>
      show ((signCh bb, c) :: rowOf ct bt).map (fun l => l.2) = c :: ct
      rw [List.map_cons, ih bt (by simpa using h)]

theorem mem_rowOf_map (g : Char → Bool) : ∀ (s : List Char) (l : Label),
    l ∈ rowOf s (s.map g) → l = (signCh (g l.2), l.2) := by
  intro s
  induction s with
  | nil =>
    intro l h
    simp [rowOf] at h
  | cons c ct ih =>
    intro l h
    have hcons : rowOf (c :: ct) ((c :: ct).map g) =
        (signCh (g c), c) :: rowOf ct (ct.map g) := rfl
    rw [hcons] at h
    rcases List.mem_cons.1 h with he | ht
    · rw [he]
    · exact ih l ht

theorem name_mem_rowOf_map (g : Char → Bool) : ∀ (s : List Char) (v : Char),
    v ∈ s → (signCh (g v), v) ∈ rowOf s (s.map g) := by
  intro s
  induction s with
  | nil =>
    intro v h
    exact absurd h (List.not_mem_nil v)
  | cons c ct ih =>
    intro v h
    have hcons : rowOf (c :: ct) ((c :: ct).map g) =
        (signCh (g c), c) :: rowOf ct (ct.map g) := rfl
    rw [hcons]
    rcases List.mem_cons.1 h with he | ht
    · rw [he]
      exact List.mem_cons_self _ _
    · exact List.mem_cons_of_mem _ (ih v ht)

theorem rowOf_name_inj : ∀ (s : List Char) (b : List Bool), s.Nodup →
    b.length = s.length →
    ∀ l1 ∈ rowOf s b, ∀ l2 ∈ rowOf s b, l1.2 = l2.2 → l1 = l2 := by
  intro s
  induction s with
  | nil =>
    intro b _ _ l1 h1
    simp [rowOf] at h1
  | cons c ct ih =>
    intro b hnd hlen l1 h1 l2 h2 hname
    cases b with
    | nil => simp at hlen
    | cons bb bt =>
      have hcons : rowOf (c :: ct) (bb :: bt) = (signCh bb, c) :: rowOf ct bt := rfl
      rw [hcons] at h1 h2
      have hlent : bt.length = ct.length := by simpa using hlen
      have hnames : ∀ l ∈ rowOf ct bt, l.2 ∈ ct := by
        intro l hl
        have hm := rowOf_names ct bt hlent
        rw [← hm]
        exact List.mem_map_of_mem _ hl
      rcases List.mem_cons.1 h1 with he1 | ht1 <;> rcases List.mem_cons.1 h2 with he2 | ht2
      · rw [he1, he2]
      · exfalso
        have hc2 : l2.2 ∈ ct := hnames l2 ht2
        rw [← hname, he1] at hc2
        exact (List.nodup_cons.1 hnd).1 hc2
      · exfalso
        have hc1 : l1.2 ∈ ct := hnames l1 ht1
        rw [hname, he2] at hc1
        exact (List.nodup_cons.1 hnd).1 hc1
      · exact ih bt (List.nodup_cons.1 hnd).2 hlent l1 ht1 l2 ht2 hname

theorem exists_label_of_name (s : List Char) (b : List Bool) (hlen : b.length = s.length)
    (v : Char) (hv : v ∈ s) : ∃ l ∈ rowOf s b, l.2 = v := by
  rw [← rowOf_names s b hlen] at hv
  obtain ⟨l, hl, hlv⟩ := List.mem_map.1 hv
  exact ⟨l, hl, hlv⟩

theorem rowOf_eq_map (g : Char → Bool) : ∀ (s : List Char) (b : List Bool),
    b.length = s.length →
    (∀ l ∈ rowOf s b, l.1 = signCh (g l.2)) → b = s.map g := by
  intro s
  induction s with
  | nil =>
    intro b h _
    exact List.eq_nil_of_length_eq_zero h
  | cons c ct ih =>
    intro b hlen hall
    cases b with
    | nil => simp at hlen
    | cons bb bt =>
      have hhd : bb = g c := by
        have h1 := hall (signCh bb, c) (by exact List.mem_cons_self _ _)
        exact signCh_inj bb (g c) h1
      rw [List.map_cons, ← hhd, ih bt (by simpa using hlen)
        (fun l hl => hall l (List.mem_cons_of_mem _ hl))]

theorem map_indexOf_getD (d : Bool) : ∀ (s : List Char) (b : List Bool), s.Nodup →
    b.length = s.length → s.map (fun v => b.getD (s.indexOf v) d) = b := by
  intro s
  induction s with
  | nil =>
    intro b _ h
    rw [List.eq_nil_of_length_eq_zero h]
    rfl
  | cons c ct ih =>
    intro b hnd hlen
    cases b with
    | nil => simp at hlen
    | cons bb bt =>
      rw [List.map_cons, List.indexOf_cons_self, List.getD_cons_zero]
      have htl : ct.map (fun v => (bb :: bt).getD ((c :: ct).indexOf v) d) =
          ct.map (fun v => bt.getD (ct.indexOf v) d) := by
        apply List.map_congr_left
        intro v hv
        have hvc : v ≠ c := by
          intro h
          subst h
          exact (List.nodup_cons.1 hnd).1 hv
        rw [List.indexOf_cons_ne ct (Ne.symm hvc), List.getD_cons_succ]
      rw [htl, ih bt (List.nodup_cons.1 hnd).2 (by simpa using hlen)]

theorem row_labels_of_complete (t : List Row) (s : List Char)
    (hc : (t.map (fun r => r.1)).Perm ((allBools s.length).map (rowOf s)))
    (r : Row) (hr : r ∈ t) :
    ∃ b : List Bool, b.length = s.length ∧ r.1 = rowOf s b := by
  have hm : r.1 ∈ (allBools s.length).map (rowOf s) :=
    hc.mem_iff.1 (List.mem_map_of_mem _ hr)
  obtain ⟨b, hb, hbe⟩ := List.mem_map.1 hm
  exact ⟨b, (mem_allBools _ b).1 hb, hbe.symm⟩

theorem count_row_eq_one (t : List Row) (s : List Char)
    (hc : (t.map (fun r => r.1)).Perm ((allBools s.length).map (rowOf s)))
    (b : List Bool) (hb : b.length = s.length) :
    t.countP (fun r => decide (r.1 = rowOf s b)) = 1 := by
  have h1 : t.countP (fun r => decide (r.1 = rowOf s b)) =
      (t.map (fun r => r.1)).countP (fun L => decide (L = rowOf s b)) :=
    (List.countP_map (fun L => decide (L = rowOf s b)) (fun r : Row => r.1) t).symm
  have h2 : (t.map (fun r => r.1)).countP (fun L => decide (L = rowOf s b)) =
      ((allBools s.length).map (rowOf s)).countP (fun L => decide (L = rowOf s b)) :=
    hc.countP_eq _
  have h3 : ((allBools s.length).map (rowOf s)).countP
      (fun L => decide (L = rowOf s b)) =
      (allBools s.length).countP (fun c => decide (rowOf s c = rowOf s b)) :=
    List.countP_map _ _ _
  have h4 : (allBools s.length).countP (fun c => decide (rowOf s c = rowOf s b)) =
      (allBools s.length).countP (fun c => decide (c = b)) := by
    apply List.countP_congr
    intro c hcm
    have hcl : c.length = s.length := (mem_allBools s.length c).1 hcm
    rw [decide_eq_true_eq, decide_eq_true_eq]
    constructor
    · intro h
      exact rowOf_inj s c b hcl hb h
    · intro h
      rw [h]
  rw [h1, h2, h3, h4]
  exact countP_self_allBools s.length b hb

theorem evidence_matches_iff (s1 s2 : List Char) (b1 b2 : List Bool)
    (hn1 : s1.Nodup) (hn2 : s2.Nodup)
    (hl1 : b1.length = s1.length) (hl2 : b2.length = s2.length)
    (hshare : ∃ v, v ∈ s1 ∧ v ∈ s2) :
    VariableElim.evidence_matches (rowOf s1 b1).toFinset (rowOf s2 b2).toFinset =
      decide (∀ l1 ∈ rowOf s1 b1, ∀ l2 ∈ rowOf s2 b2, l1.2 = l2.2 → l1 = l2) := by
  rw [Bool.eq_iff_iff]
  simp only [VariableElim.evidence_matches, Bool.and_eq_true, decide_eq_true_eq]
  constructor
  · rintro ⟨_, hdisj⟩ l1 hml1 l2 hml2 hname
    by_contra hne
    have hl1B : l1 ∉ rowOf s2 b2 := by
      intro hin
      exact hne (rowOf_name_inj s2 b2 hn2 hl2 l1 hin l2 hml2 hname)
    have hl2A : l2 ∉ rowOf s1 b1 := by
      intro hin
      exact hne (rowOf_name_inj s1 b1 hn1 hl1 l1 hml1 l2 hin hname)
    have hm1 : l1.2 ∈ ((rowOf s1 b1).toFinset \
        ((rowOf s1 b1).toFinset ∩ (rowOf s2 b2).toFinset)).image (fun l => l.2) := by
      apply Finset.mem_image_of_mem
      rw [Finset.mem_sdiff]
      refine ⟨List.mem_toFinset.2 hml1, ?_⟩
      rw [Finset.mem_inter]
      rintro ⟨_, hB⟩
      exact hl1B (List.mem_toFinset.1 hB)
    have hm2 : l1.2 ∈ ((rowOf s2 b2).toFinset \
        ((rowOf s1 b1).toFinset ∩ (rowOf s2 b2).toFinset)).image (fun l => l.2) := by
      rw [hname]
      apply Finset.mem_image_of_mem
      rw [Finset.mem_sdiff]
      refine ⟨List.mem_toFinset.2 hml2, ?_⟩
      rw [Finset.mem_inter]
      rintro ⟨hA, _⟩
      exact hl2A (List.mem_toFinset.1 hA)
    have hint : l1.2 ∈ (((rowOf s1 b1).toFinset \
        ((rowOf s1 b1).toFinset ∩ (rowOf s2 b2).toFinset)).image (fun l => l.2)) ∩
        (((rowOf s2 b2).toFinset \
          ((rowOf s1 b1).toFinset ∩ (rowOf s2 b2).toFinset)).image (fun l => l.2)) :=
      Finset.mem_inter.2 ⟨hm1, hm2⟩
    rw [hdisj] at hint
    exact absurd hint (Finset.not_mem_empty _)
  · intro hagree
    obtain ⟨v, hv1, hv2⟩ := hshare
    obtain ⟨l1, hml1, hl1v⟩ := exists_label_of_name s1 b1 hl1 v hv1
    obtain ⟨l2, hml2, hl2v⟩ := exists_label_of_name s2 b2 hl2 v hv2
    have heq : l1 = l2 := hagree l1 hml1 l2 hml2 (by rw [hl1v, hl2v])
    constructor
    · apply Finset.card_ne_zero_of_mem
      apply Finset.mem_inter.2
      refine ⟨List.mem_toFinset.2 hml1, List.mem_toFinset.2 ?_⟩
      rw [heq]
      exact hml2
    · rw [Finset.eq_empty_iff_forall_not_mem]
      intro n hn
      rw [Finset.mem_inter] at hn
      obtain ⟨hn1m, hn2m⟩ := hn
      obtain ⟨la, hla, hlan⟩ := Finset.mem_image.1 hn1m
      obtain ⟨lb, hlb, hlbn⟩ := Finset.mem_image.1 hn2m
      rw [Finset.mem_sdiff] at hla hlb
      have hlaA : la ∈ rowOf s1 b1 := List.mem_toFinset.1 hla.1
      have hlbB : lb ∈ rowOf s2 b2 := List.mem_toFinset.1 hlb.1
      have heq2 : la = lb := hagree la hlaA lb hlbB (by rw [hlan, hlbn])
      apply hla.2
      rw [Finset.mem_inter]
      refine ⟨hla.1, ?_⟩
      rw [heq2]
      exact hlb.1

theorem join_pair_agree (t1 t2 : List Row) (s1 s2 : List Char)
    (hn1 : s1.Nodup) (hn2 : s2.Nodup) (hshare : ∃ v, v ∈ s1 ∧ v ∈ s2)
    (hc1 : (t1.map (fun r => r.1)).Perm ((allBools s1.length).map (rowOf s1)))
    (hc2 : (t2.map (fun r => r.1)).Perm ((allBools s2.length).map (rowOf s2))) :
    VariableElim.join [t1, t2] =
      t1.flatMap (fun row => t2.filterMap (fun other_row =>
        if decide (∀ l1 ∈ row.1, ∀ l2 ∈ other_row.1, l1.2 = l2.2 → l1 = l2) then
          some (sortLabels ((row.1 ++ other_row.1).dedup), row.2 * other_row.2)
        else none)) := by
  show VariableElim.join_pair t1 t2 = _
  unfold VariableElim.join_pair
  apply List.flatMap_congr
  intro row hrow
  obtain ⟨b1, hb1len, hb1⟩ := row_labels_of_complete t1 s1 hc1 row hrow
  apply List.filterMap_congr
  intro other hother
  obtain ⟨b2, hb2len, hb2⟩ := row_labels_of_complete t2 s2 hc2 other hother
  show (if VariableElim.evidence_matches row.1.toFinset other.1.toFinset then
      some (sortLabels ((row.1 ++ other.1).dedup), row.2 * other.2) else none) = _
  have hcond : VariableElim.evidence_matches row.1.toFinset other.1.toFinset =
      decide (∀ l1 ∈ row.1, ∀ l2 ∈ other.1, l1.2 = l2.2 → l1 = l2) := by
    rw [hb1, hb2]
    exact evidence_matches_iff s1 s2 b1 b2 hn1 hn2 hb1len hb2len hshare
  rw [hcond]

theorem rowOf_map_eq (g : Char → Bool) : ∀ s : List Char,
    rowOf s (s.map g) = s.map (fun v => (signCh (g v), v)) := by
  intro s
  induction s with
  | nil => rfl
  | cons c ct ih =>
    show (signCh (g c), c) :: rowOf ct (ct.map g) = _
    rw [List.map_cons, ih]

theorem mem_rowOf_map_iff (g : Char → Bool) (s : List Char) (l : Label) :
    l ∈ rowOf s (s.map g) ↔ (l = (signCh (g l.2), l.2) ∧ l.2 ∈ s) := by
  rw [rowOf_map_eq]
  constructor
  · intro h
    obtain ⟨v, hv, hveq⟩ := List.mem_map.1 h
    have hn : l.2 = v := by rw [← hveq]
    constructor
    · rw [← hveq]
    · rw [hn]
      exact hv
  · rintro ⟨he, hs⟩
    rw [he]
    exact List.mem_map_of_mem _ hs

theorem mem_sortedUnion (s1 s2 : List Char) (v : Char) :
    v ∈ sortChars ((s1 ++ s2).dedup) ↔ (v ∈ s1 ∨ v ∈ s2) := by
  unfold sortChars
  rw [(List.perm_insertionSort (fun a b : Char => a ≤ b) ((s1 ++ s2).dedup)).mem_iff,
    List.mem_dedup, List.mem_append]

theorem nodup_sortedUnion (s1 s2 : List Char) : (sortChars ((s1 ++ s2).dedup)).Nodup :=
  ((List.perm_insertionSort (fun a b : Char => a ≤ b) ((s1 ++ s2).dedup)).nodup_iff).2
    (List.nodup_dedup _)

theorem sorted_lt_sortedUnion (s1 s2 : List Char) :
    List.Sorted (fun a b : Char => a < b) (sortChars ((s1 ++ s2).dedup)) :=
  List.Sorted.lt_of_le (List.sorted_insertionSort _ _) (nodup_sortedUnion s1 s2)

theorem sorted_labels_rowOf_map (s : List Char) (g : Char → Bool)
    (hs : List.Sorted (fun a b : Char => a < b) s) :
    List.Sorted labelLE (rowOf s (s.map g)) := by
  rw [rowOf_map_eq]
  apply List.pairwise_map.2
  apply List.Pairwise.imp ?_ hs
  intro a b hab
  exact Or.inl hab

theorem sorted_union_eq (s1 s2 : List Char) (g : Char → Bool)
    (hn1 : s1.Nodup) (hn2 : s2.Nodup) :
    sortLabels ((rowOf s1 (s1.map g) ++ rowOf s2 (s2.map g)).dedup) =
      rowOf (sortChars ((s1 ++ s2).dedup))
        ((sortChars ((s1 ++ s2).dedup)).map g) := by
  apply List.eq_of_perm_of_sorted (r := labelLE)
  · apply List.perm_of_nodup_nodup_toFinset_eq
    · exact ((List.perm_insertionSort labelLE _).nodup_iff).2 (List.nodup_dedup _)
    · apply List.Nodup.of_map (fun l : Label => l.2)
      rw [rowOf_names _ _ (by rw [List.length_map])]
      exact nodup_sortedUnion s1 s2
    · apply Finset.ext
      intro l
      rw [List.mem_toFinset, List.mem_toFinset]
      unfold sortLabels
      rw [(List.perm_insertionSort labelLE _).mem_iff, List.mem_dedup, List.mem_append,
        mem_rowOf_map_iff, mem_rowOf_map_iff, mem_rowOf_map_iff, mem_sortedUnion]
      constructor
      · rintro (⟨he, hs⟩ | ⟨he, hs⟩)
        · exact ⟨he, Or.inl hs⟩
        · exact ⟨he, Or.inr hs⟩
      · rintro ⟨he, hs | hs⟩
        · exact Or.inl ⟨he, hs⟩
        · exact Or.inr ⟨he, hs⟩
  · exact List.sorted_insertionSort labelLE _
  · exact sorted_labels_rowOf_map _ g (sorted_lt_sortedUnion s1 s2)

theorem sorted_union_inv (s1 s2 : List Char) (b1 b2 : List Bool) (g : Char → Bool)
    (hl1 : b1.length = s1.length) (hl2 : b2.length = s2.length)
    (heq : sortLabels ((rowOf s1 b1 ++ rowOf s2 b2).dedup) =
      rowOf (sortChars ((s1 ++ s2).dedup)) ((sortChars ((s1 ++ s2).dedup)).map g)) :
    b1 = s1.map g ∧ b2 = s2.map g := by
  have hmem : ∀ l : Label, l ∈ rowOf s1 b1 ∨ l ∈ rowOf s2 b2 →
      l = (signCh (g l.2), l.2) := by
    intro l hl
    have h1 : l ∈ (rowOf s1 b1 ++ rowOf s2 b2).dedup := by
      rw [List.mem_dedup, List.mem_append]
      exact hl
    have h2 : l ∈ sortLabels ((rowOf s1 b1 ++ rowOf s2 b2).dedup) :=
      (List.perm_insertionSort _ _).mem_iff.2 h1
    rw [heq, mem_rowOf_map_iff] at h2
    exact h2.1
  constructor
  · exact rowOf_eq_map g s1 b1 hl1
      (fun l hl => congrArg Prod.fst (hmem l (Or.inl hl)))
  · exact rowOf_eq_map g s2 b2 hl2
      (fun l hl => congrArg Prod.fst (hmem l (Or.inr hl)))

theorem agree_of_maps (s1 s2 : List Char) (g : Char → Bool) :
    ∀ l1 ∈ rowOf s1 (s1.map g), ∀ l2 ∈ rowOf s2 (s2.map g), l1.2 = l2.2 → l1 = l2 := by
  intro l1 h1 l2 h2 hname
  have e1 := mem_rowOf_map g s1 l1 h1
  have e2 := mem_rowOf_map g s2 l2 h2
  rw [e1, e2, hname]

theorem countP_filterMap {α β : Type} (f : α → Option β) (p : β → Bool) :
    ∀ l : List α, (l.filterMap f).countP p =
      l.countP (fun a => ((f a).map p).getD false) := by
  intro l
  induction l with
  | nil => rfl
  | cons x xs ih =>
    rw [List.filterMap_cons]
    cases hfx : f x with
    | none =>
      rw [List.countP_cons, ih]
      have hqx : ((f x).map p).getD false = false := by rw [hfx]; rfl
      rw [hqx]
      simp
    | some b =>
      rw [List.countP_cons, List.countP_cons, ih]
      have hqx : ((f x).map p).getD false = p b := by rw [hfx]; rfl
      rw [hqx]

theorem label_at_name : ∀ (s : List Char) (b : List Bool), b.length = s.length →
    ∀ v ∈ s, (signCh (b.getD (s.indexOf v) true), v) ∈ rowOf s b := by
  intro s
  induction s with
  | nil =>
    intro b _ v hv
    exact absurd hv (List.not_mem_nil v)
  | cons c ct ih =>
    intro b hlen v hv
    cases b with
    | nil => simp at hlen
    | cons bb bt =>
      by_cases hvc : v = c
      · subst hvc
        rw [List.indexOf_cons_self, List.getD_cons_zero]
        exact List.mem_cons_self _ _
      · have hvt : v ∈ ct := by
          rcases List.mem_cons.1 hv with h | h
          · exact absurd h hvc
          · exact h
        rw [List.indexOf_cons_ne ct (Ne.symm hvc), List.getD_cons_succ]
        show _ ∈ (signCh bb, c) :: rowOf ct bt
        exact List.mem_cons_of_mem _ (ih bt (by simpa using hlen) v hvt)

theorem join_row_count (t2 : List Row) (s1 s2 : List Char) (g : Char → Bool)
    (hn1 : s1.Nodup) (hn2 : s2.Nodup)
    (hc2 : (t2.map (fun r => r.1)).Perm ((allBools s2.length).map (rowOf s2)))
    (row : Row) (b1 : List Bool) (hb1len : b1.length = s1.length)
    (hb1 : row.1 = rowOf s1 b1) :
    (t2.filterMap (fun other_row =>
      if decide (∀ l1 ∈ row.1, ∀ l2 ∈ other_row.1, l1.2 = l2.2 → l1 = l2) then
        some (sortLabels ((row.1 ++ other_row.1).dedup), row.2 * other_row.2)
      else none)).countP (fun r => decide (r.1 =
        rowOf (sortChars ((s1 ++ s2).dedup))
          ((sortChars ((s1 ++ s2).dedup)).map g))) =
      if b1 = s1.map g then 1 else 0 := by
  rw [countP_filterMap]
  have hcongr : ∀ other ∈ t2,
      (((if decide (∀ l1 ∈ row.1, ∀ l2 ∈ other.1, l1.2 = l2.2 → l1 = l2) then
          some (sortLabels ((row.1 ++ other.1).dedup), row.2 * other.2)
        else none).map (fun r : Row => decide (r.1 =
          rowOf (sortChars ((s1 ++ s2).dedup))
            ((sortChars ((s1 ++ s2).dedup)).map g)))).getD false) =
      (decide (b1 = s1.map g) && decide (other.1 = rowOf s2 (s2.map g))) := by
    intro other hother
    obtain ⟨b2, hb2len, hb2⟩ := row_labels_of_complete t2 s2 hc2 other hother
    by_cases hA : ∀ l1 ∈ row.1, ∀ l2 ∈ other.1, l1.2 = l2.2 → l1 = l2
    · rw [decide_eq_true hA, if_pos rfl]
      show decide (sortLabels ((row.1 ++ other.1).dedup) =
          rowOf (sortChars ((s1 ++ s2).dedup))
            ((sortChars ((s1 ++ s2).dedup)).map g)) = _
      by_cases hb1g : b1 = s1.map g
      · by_cases hb2g : b2 = s2.map g
        · rw [decide_eq_true hb1g,
            decide_eq_true (show other.1 = rowOf s2 (s2.map g) by rw [hb2, hb2g]),
            hb1, hb2, hb1g, hb2g, sorted_union_eq s1 s2 g hn1 hn2,
            decide_eq_true rfl]
          rfl
        · have hLf : decide (sortLabels ((row.1 ++ other.1).dedup) =
              rowOf (sortChars ((s1 ++ s2).dedup))
                ((sortChars ((s1 ++ s2).dedup)).map g)) = false := by
            apply decide_eq_false
            intro heq
            rw [hb1, hb2] at heq
            exact hb2g (sorted_union_inv s1 s2 b1 b2 g hb1len hb2len heq).2
          have hRf : decide (other.1 = rowOf s2 (s2.map g)) = false := by
            apply decide_eq_false
            intro heq
            apply hb2g
            apply rowOf_inj s2 b2 (s2.map g) hb2len (by rw [List.length_map])
            rw [← hb2]
            exact heq
          rw [hLf, hRf, Bool.and_false]
      · have hLf : decide (sortLabels ((row.1 ++ other.1).dedup) =
            rowOf (sortChars ((s1 ++ s2).dedup))
              ((sortChars ((s1 ++ s2).dedup)).map g)) = false := by
          apply decide_eq_false
          intro heq
          rw [hb1, hb2] at heq
          exact hb1g (sorted_union_inv s1 s2 b1 b2 g hb1len hb2len heq).1
        rw [hLf, decide_eq_false hb1g, Bool.false_and]
    · rw [decide_eq_false hA, if_neg (by decide)]
      show false = _
      by_cases hb1g : b1 = s1.map g
      · have hRf : decide (other.1 = rowOf s2 (s2.map g)) = false := by
          apply decide_eq_false
          intro heq
          apply hA
          rw [hb1, hb1g, heq]
          exact agree_of_maps s1 s2 g
        rw [hRf, Bool.and_false]
      · rw [decide_eq_false hb1g, Bool.false_and]
  rw [List.countP_congr (fun a ha => by rw [hcongr a ha])]
  by_cases hbg : b1 = s1.map g
  · rw [if_pos hbg]
    have hsimp : ∀ other ∈ t2, (decide (b1 = s1.map g) &&
        decide (other.1 = rowOf s2 (s2.map g))) =
        decide (other.1 = rowOf s2 (s2.map g)) := by
      intro other _
      rw [decide_eq_true hbg, Bool.true_and]
    rw [List.countP_congr (fun a ha => by rw [hsimp a ha])]
    exact count_row_eq_one t2 s2 hc2 (s2.map g) (by rw [List.length_map])
  · rw [if_neg hbg]
    have hsimp : ∀ other ∈ t2, (decide (b1 = s1.map g) &&
        decide (other.1 = rowOf s2 (s2.map g))) = false := by
      intro other _
      rw [decide_eq_false hbg, Bool.false_and]
    rw [List.countP_congr (fun a ha => by rw [hsimp a ha])]
    simp

theorem countP_rowOf_target (s : List Char) (b : List Bool) (hb : b.length = s.length) :
    (allBools s.length).countP (fun c => decide (rowOf s b = rowOf s c)) = 1 := by
  have h : (allBools s.length).countP (fun c => decide (rowOf s b = rowOf s c)) =
      (allBools s.length).countP (fun c => decide (c = b)) := by
    apply List.countP_congr
    intro c hcm
    have hcl : c.length = s.length := (mem_allBools _ c).1 hcm
    rw [decide_eq_true_eq, decide_eq_true_eq]
    constructor
    · intro h2
      exact (rowOf_inj s b c hb hcl h2).symm
    · intro h2
      rw [h2]
  rw [h]
  exact countP_self_allBools s.length b hb

theorem joint_g_exists (s1 s2 : List Char) (b1 b2 : List Bool)
    (hn1 : s1.Nodup) (hn2 : s2.Nodup)
    (hb1len : b1.length = s1.length) (hb2len : b2.length = s2.length)
    (hA : ∀ l1 ∈ rowOf s1 b1, ∀ l2 ∈ rowOf s2 b2, l1.2 = l2.2 → l1 = l2) :
    ∃ g : Char → Bool, b1 = s1.map g ∧ b2 = s2.map g := by
  refine ⟨fun v => if v ∈ s1 then b1.getD (s1.indexOf v) true
    else b2.getD (s2.indexOf v) true, ?_, ?_⟩
  · have hm : s1.map (fun v => if v ∈ s1 then b1.getD (s1.indexOf v) true
        else b2.getD (s2.indexOf v) true) =
        s1.map (fun v => b1.getD (s1.indexOf v) true) := by
      apply List.map_congr_left
      intro v hv
      rw [if_pos hv]
    rw [hm, map_indexOf_getD true s1 b1 hn1 hb1len]
  · have hm : s2.map (fun v => if v ∈ s1 then b1.getD (s1.indexOf v) true
        else b2.getD (s2.indexOf v) true) =
        s2.map (fun v => b2.getD (s2.indexOf v) true) := by
      apply List.map_congr_left
      intro v hv
      by_cases hv1 : v ∈ s1
      · rw [if_pos hv1]
        have hl1 := label_at_name s1 b1 hb1len v hv1
        have hl2 := label_at_name s2 b2 hb2len v hv
        have heq := hA _ hl1 _ hl2 rfl
        injection heq with hs _
        exact signCh_inj _ _ hs
      · rw [if_neg hv1]
    rw [hm, map_indexOf_getD true s2 b2 hn2 hb2len]

theorem join_count_one (t1 t2 : List Row) (s1 s2 : List Char)
    (hn1 : s1.Nodup) (hn2 : s2.Nodup) (hshare : ∃ v, v ∈ s1 ∧ v ∈ s2)
    (hc1 : (t1.map (fun r => r.1)).Perm ((allBools s1.length).map (rowOf s1)))
    (hc2 : (t2.map (fun r => r.1)).Perm ((allBools s2.length).map (rowOf s2)))
    (g : Char → Bool) :
    (VariableElim.join [t1, t2]).countP (fun r => decide (r.1 =
      rowOf (sortChars ((s1 ++ s2).dedup))
        ((sortChars ((s1 ++ s2).dedup)).map g))) = 1 := by
  rw [join_pair_agree t1 t2 s1 s2 hn1 hn2 hshare hc1 hc2, List.countP_flatMap]
  have hmap : t1.map ((List.countP (fun r : Row => decide (r.1 =
      rowOf (sortChars ((s1 ++ s2).dedup))
        ((sortChars ((s1 ++ s2).dedup)).map g)))) ∘ (fun row =>
      t2.filterMap (fun other_row =>
        if decide (∀ l1 ∈ row.1, ∀ l2 ∈ other_row.1, l1.2 = l2.2 → l1 = l2) then
          some (sortLabels ((row.1 ++ other_row.1).dedup), row.2 * other_row.2)
        else none))) =
      t1.map (fun row =>
        if decide (row.1 = rowOf s1 (s1.map g)) = true then 1 else 0) := by
    apply List.map_congr_left
    intro row hrow
    obtain ⟨b1, hb1len, hb1⟩ := row_labels_of_complete t1 s1 hc1 row hrow
    show (t2.filterMap (fun other_row =>
        if decide (∀ l1 ∈ row.1, ∀ l2 ∈ other_row.1, l1.2 = l2.2 → l1 = l2) then
          some (sortLabels ((row.1 ++ other_row.1).dedup), row.2 * other_row.2)
        else none)).countP (fun r : Row => decide (r.1 =
          rowOf (sortChars ((s1 ++ s2).dedup))
            ((sortChars ((s1 ++ s2).dedup)).map g))) = _
    rw [join_row_count t2 s1 s2 g hn1 hn2 hc2 row b1 hb1len hb1]
    by_cases hbg : b1 = s1.map g
    · rw [if_pos hbg, if_pos (by rw [decide_eq_true_eq, hb1, hbg])]
    · have hne : ¬ (decide (row.1 = rowOf s1 (s1.map g)) = true) := by
        rw [decide_eq_true_eq, hb1]
        intro h
        exact hbg (rowOf_inj s1 b1 (s1.map g) hb1len (by rw [List.length_map]) h)
      rw [if_neg hbg, if_neg hne]
  rw [hmap, sum_ite_eq_countP]
  exact count_row_eq_one t1 s1 hc1 (s1.map g) (by rw [List.length_map])

theorem sortedUnion_length (s1 s2 : List Char) :
    (sortChars ((s1 ++ s2).dedup)).length = (s1.toFinset ∪ s2.toFinset).card := by
  have h1 : (sortChars ((s1 ++ s2).dedup)).length = ((s1 ++ s2).dedup).length :=
    (List.perm_insertionSort (fun a b : Char => a ≤ b) ((s1 ++ s2).dedup)).length_eq
  have h2 : ((s1 ++ s2).dedup).toFinset = (s1 ++ s2).toFinset := by
    apply Finset.ext
    intro x
    rw [List.mem_toFinset, List.mem_toFinset, List.mem_dedup]
  rw [h1, ← List.toFinset_append, ← h2]
  exact (List.toFinset_card_of_nodup (List.nodup_dedup _)).symm

theorem join_length (t1 t2 : List Row) (s1 s2 : List Char)
    (hn1 : s1.Nodup) (hn2 : s2.Nodup) (hshare : ∃ v, v ∈ s1 ∧ v ∈ s2)
    (hc1 : (t1.map (fun r => r.1)).Perm ((allBools s1.length).map (rowOf s1)))
    (hc2 : (t2.map (fun r => r.1)).Perm ((allBools s2.length).map (rowOf s2))) :
    (VariableElim.join [t1, t2]).length =
      2 ^ (sortChars ((s1 ++ s2).dedup)).length := by
  have hall : ∀ L ∈ (VariableElim.join [t1, t2]).map (fun r => r.1),
      (allBools (sortChars ((s1 ++ s2).dedup)).length).countP
        (fun c => decide (L = rowOf (sortChars ((s1 ++ s2).dedup)) c)) = 1 := by
    intro L hL
    obtain ⟨r, hr, hrL⟩ := List.mem_map.1 hL
    rw [join_pair_agree t1 t2 s1 s2 hn1 hn2 hshare hc1 hc2] at hr
    obtain ⟨row, hrow, hrin⟩ := List.mem_flatMap.1 hr
    obtain ⟨other, hother, hsome⟩ := List.mem_filterMap.1 hrin
    obtain ⟨b1, hb1len, hb1⟩ := row_labels_of_complete t1 s1 hc1 row hrow
    obtain ⟨b2, hb2len, hb2⟩ := row_labels_of_complete t2 s2 hc2 other hother
    by_cases hA : ∀ l1 ∈ row.1, ∀ l2 ∈ other.1, l1.2 = l2.2 → l1 = l2
    · rw [decide_eq_true hA, if_pos rfl] at hsome
      have hpair := Option.some.inj hsome
      have hrL2 : r.1 = sortLabels ((row.1 ++ other.1).dedup) := by
        rw [← hpair]
      obtain ⟨g0, hb1g, hb2g⟩ := joint_g_exists s1 s2 b1 b2 hn1 hn2 hb1len hb2len
        (by rw [← hb1, ← hb2]; exact hA)
      have hL0 : L = rowOf (sortChars ((s1 ++ s2).dedup))
          ((sortChars ((s1 ++ s2).dedup)).map g0) := by
        rw [← hrL, hrL2, hb1, hb2, hb1g, hb2g, sorted_union_eq s1 s2 g0 hn1 hn2]
      rw [hL0]
      exact countP_rowOf_target (sortChars ((s1 ++ s2).dedup))
        ((sortChars ((s1 ++ s2).dedup)).map g0) (by rw [List.length_map])
    · rw [decide_eq_false hA, if_neg (by decide)] at hsome
      exact Option.noConfusion hsome
  have hsum := length_eq_sum_countP (rowOf (sortChars ((s1 ++ s2).dedup)))
    ((VariableElim.join [t1, t2]).map (fun r => r.1))
    (allBools (sortChars ((s1 ++ s2).dedup)).length) hall
  have hloop : (allBools (sortChars ((s1 ++ s2).dedup)).length).map (fun c =>
      ((VariableElim.join [t1, t2]).map (fun r => r.1)).countP
        (fun L => decide (L = rowOf (sortChars ((s1 ++ s2).dedup)) c))) =
      (allBools (sortChars ((s1 ++ s2).dedup)).length).map (fun _ => 1) := by
    apply List.map_congr_left
    intro c hcm
    have hcl : c.length = (sortChars ((s1 ++ s2).dedup)).length :=
      (mem_allBools _ c).1 hcm
    rw [List.countP_map]
    have hcg : c = (sortChars ((s1 ++ s2).dedup)).map (fun v =>
        c.getD ((sortChars ((s1 ++ s2).dedup)).indexOf v) true) :=
      (map_indexOf_getD true _ c (nodup_sortedUnion s1 s2) hcl).symm
    rw [hcg]
    exact join_count_one t1 t2 s1 s2 hn1 hn2 hshare hc1 hc2
      (fun v => c.getD ((sortChars ((s1 ++ s2).dedup)).indexOf v) true)
  rw [hloop, List.length_map, sum_map_const, length_allBools] at hsum
  omega

/--
Claim C3: for two factors with nodup scopes sharing at least one variable,
each complete over its own scope, `VariableElim.join` (i) rewrites to the
table holding one row for every pair of input rows that agree on every
shared variable (same sign for every common name), the row carrying the
sorted union of the two label sets and the product of the two weights;
(ii) has exactly `2 ^ |union scope|` rows; and (iii) for every assignment
`g` of the union scope, exactly one row is labelled by that assignment.
-/
theorem C3_join (t1 t2 : List Row) (s1 s2 : List Char)
    (hn1 : s1.Nodup) (hn2 : s2.Nodup) (hshare : ∃ v, v ∈ s1 ∧ v ∈ s2)
    (hc1 : (t1.map (fun r => r.1)).Perm ((allBools s1.length).map (rowOf s1)))
    (hc2 : (t2.map (fun r => r.1)).Perm ((allBools s2.length).map (rowOf s2))) :
    VariableElim.join [t1, t2] =
      t1.flatMap (fun row => t2.filterMap (fun other_row =>
        if decide (∀ l1 ∈ row.1, ∀ l2 ∈ other_row.1, l1.2 = l2.2 → l1 = l2) then
          some (sortLabels ((row.1 ++ other_row.1).dedup), row.2 * other_row.2)
        else none)) ∧
    (VariableElim.join [t1, t2]).length = 2 ^ (s1.toFinset ∪ s2.toFinset).card ∧
    ∀ g : Char → Bool,
      (VariableElim.join [t1, t2]).countP (fun r => decide (r.1 =
        rowOf (sortChars ((s1 ++ s2).dedup))
          ((sortChars ((s1 ++ s2).dedup)).map g))) = 1 :=
  ⟨join_pair_agree t1 t2 s1 s2 hn1 hn2 hshare hc1 hc2,
   by rw [join_length t1 t2 s1 s2 hn1 hn2 hshare hc1 hc2, sortedUnion_length],
   fun g => join_count_one t1 t2 s1 s2 hn1 hn2 hshare hc1 hc2 g⟩

/-- A complete factor over scope `AB`, witnessing claim C3. -/
def c3t1 : List Row :=
  [([('+','A'),('+','B')], (1:ℚ)), ([('+','A'),('-','B')], 2),
   ([('-','A'),('+','B')], 3), ([('-','A'),('-','B')], 4)]

/-- A complete factor over scope `BC`, witnessing claim C3. -/
def c3t2 : List Row :=
  [([('+','B'),('+','C')], (5:ℚ)), ([('+','B'),('-','C')], 6),
   ([('-','B'),('+','C')], 7), ([('-','B'),('-','C')], 8)]

/-- Witness for claim C3 on two concrete complete factors over the scopes
`AB` and `BC`, which share the variable `B`. -/
theorem C3_witness :
    (['A','B'] : List Char).Nodup ∧ (['B','C'] : List Char).Nodup ∧
    (∃ v, v ∈ (['A','B'] : List Char) ∧ v ∈ (['B','C'] : List Char)) ∧
    (c3t1.map (fun r => r.1)).Perm
      ((allBools (['A','B'] : List Char).length).map (rowOf ['A','B'])) ∧
    (c3t2.map (fun r => r.1)).Perm
      ((allBools (['B','C'] : List Char).length).map (rowOf ['B','C'])) ∧
    (VariableElim.join [c3t1, c3t2]).length =
      2 ^ ((['A','B'] : List Char).toFinset ∪ (['B','C'] : List Char).toFinset).card ∧
    (VariableElim.join [c3t1, c3t2]).countP (fun r => decide (r.1 =
      rowOf (sortChars (((['A','B'] : List Char) ++ ['B','C']).dedup))
        ((sortChars (((['A','B'] : List Char) ++ ['B','C']).dedup)).map
          (fun _ => true)))) = 1 :=
  ⟨by decide, by decide, ⟨'B', by decide, by decide⟩, by decide, by decide,
   (C3_join c3t1 c3t2 ['A','B'] ['B','C'] (by decide) (by decide)
     ⟨'B', by decide, by decide⟩ (by decide) (by decide)).2.1,
   (C3_join c3t1 c3t2 ['A','B'] ['B','C'] (by decide) (by decide)
     ⟨'B', by decide, by decide⟩ (by decide) (by decide)).2.2 (fun _ => true)⟩

end BayesNets
